import Mathlib

/-!
# Verification of the todotxt recurrence engine

A shallow embedding of `src/todotxt.py`: the text-based recurrence processor
`process_recurring_text`, its calendar arithmetic `_add_recurrence`, and the
past-due scanner `find_past_due`.  Text is modelled as `List Char` (Python
`str`), the regex scans of the source are modelled by explicit left-to-right
character scanners with the same leftmost / non-overlapping semantics, and the
SHA-1 fingerprint is implemented in full.  Exceptions are modelled with
`Except`: `TodotxtError` keeps its message, while `ValueError` and
`OverflowError` raised inside Python's `datetime` library are collapsed into a
single constructor (the source never distinguishes them).
-/

set_option maxRecDepth 40000

/-- ASCII whitespace as used by Python's `str.strip` and the regex class
`\s` / `\S` (the repository's data is ASCII). -/
def pyIsSpace (c : Char) : Bool :=
  c = ' ' || c = '\t' || c = '\n' || c = '\r' || c = '\x0b' || c = '\x0c'

/-- Python's `str.strip()`: remove leading and trailing whitespace. -/
def pyStrip (l : List Char) : List Char :=
  ((l.dropWhile pyIsSpace).reverse.dropWhile pyIsSpace).reverse

/-- 2^32, the word modulus of SHA-1. -/
def M32 : Nat := 4294967296

/-- Rotate a 32-bit word left by `k` bits. -/
def rotl (k n : Nat) : Nat := (n * 2 ^ k) % M32 + n / 2 ^ (32 - k)

/-- UTF-8 encoding of one character (Python `str.encode()`). -/
def utf8Bytes (c : Char) : List Nat :=
  let n := c.toNat
  if n < 128 then [n]
  else if n < 2048 then [192 + n / 64, 128 + n % 64]
  else if n < 65536 then [224 + n / 4096, 128 + n / 64 % 64, 128 + n % 64]
  else [240 + n / 262144, 128 + n / 4096 % 64, 128 + n / 64 % 64, 128 + n % 64]

/-- Big-endian bytes of a 32-bit-word group of four message bytes. -/
def bytesToWords : List Nat → List Nat
  | a :: b :: c :: d :: rest => (a * 16777216 + b * 65536 + c * 256 + d) :: bytesToWords rest
  | _ => []

/-- The eight big-endian bytes of the 64-bit message length field. -/
def be8 (n : Nat) : List Nat :=
  [n / 2 ^ 56 % 256, n / 2 ^ 48 % 256, n / 2 ^ 40 % 256, n / 2 ^ 32 % 256,
   n / 2 ^ 24 % 256, n / 2 ^ 16 % 256, n / 2 ^ 8 % 256, n % 256]

/-- SHA-1 message padding to a multiple of 64 bytes. -/
def sha1Pad (msg : List Nat) : List Nat :=
  msg ++ 128 :: List.replicate ((119 - msg.length % 64) % 64) 0 ++ be8 (8 * msg.length)

/-- Extend the 16 message-schedule words of a block to 80. -/
def expandAux (ws : List Nat) : Nat → List Nat
  | 0 => ws
  | f + 1 =>
    let n := ws.length
    expandAux (ws ++ [rotl 1 (Nat.xor (Nat.xor (ws.getD (n - 3) 0) (ws.getD (n - 8) 0))
      (Nat.xor (ws.getD (n - 14) 0) (ws.getD (n - 16) 0)))]) f

/-- The SHA-1 round function for round `t`. -/
def sha1F (t b c d : Nat) : Nat :=
  if t < 20 then Nat.lor (Nat.land b c) (Nat.land (M32 - 1 - b) d)
  else if t < 40 then Nat.xor (Nat.xor b c) d
  else if t < 60 then Nat.lor (Nat.lor (Nat.land b c) (Nat.land b d)) (Nat.land c d)
  else Nat.xor (Nat.xor b c) d

/-- The SHA-1 round constant for round `t`. -/
def sha1K (t : Nat) : Nat :=
  if t < 20 then 1518500249 else if t < 40 then 1859775393
  else if t < 60 then 2400959708 else 3395469782

/-- The 80 SHA-1 rounds over one block's schedule. -/
def roundsAux : List Nat → Nat → Nat × Nat × Nat × Nat × Nat → Nat × Nat × Nat × Nat × Nat
  | [], _, st => st
  | w :: ws, t, (a, b, c, d, e) =>
    roundsAux ws (t + 1) ((rotl 5 a + sha1F t b c d + e + sha1K t + w) % M32, a, rotl 30 b, c, d)

/-- Split a padded message into 64-byte blocks (fuel-driven). -/
def chunk64F : Nat → List Nat → List (List Nat)
  | _, [] => []
  | 0, _ => []
  | f + 1, l => l.take 64 :: chunk64F f (l.drop 64)

/-- One SHA-1 block compression. -/
def processBlock (h : Nat × Nat × Nat × Nat × Nat) (block : List Nat) :
    Nat × Nat × Nat × Nat × Nat :=
  let ws := expandAux (bytesToWords block) 64
  let (h0, h1, h2, h3, h4) := h
  let (a, b, c, d, e) := roundsAux ws 0 h
  ((h0 + a) % M32, (h1 + b) % M32, (h2 + c) % M32, (h3 + d) % M32, (h4 + e) % M32)

/-- A lowercase hexadecimal digit. -/
def hexChar (n : Nat) : Char := if n < 10 then Char.ofNat (48 + n) else Char.ofNat (87 + n)

/-- The eight hex characters of a 32-bit word, most significant first. -/
def wordHex (w : Nat) : List Char :=
  [hexChar (w / 2 ^ 28 % 16), hexChar (w / 2 ^ 24 % 16), hexChar (w / 2 ^ 20 % 16),
   hexChar (w / 2 ^ 16 % 16), hexChar (w / 2 ^ 12 % 16), hexChar (w / 2 ^ 8 % 16),
   hexChar (w / 2 ^ 4 % 16), hexChar (w % 16)]

/-- `hashlib.sha1(msg).hexdigest()`. -/
def sha1Hex (msg : List Nat) : List Char :=
  let padded := sha1Pad msg
  let st :=
    (chunk64F (padded.length / 64 + 1) padded).foldl processBlock
      (1732584193, 4023233417, 2562383102, 271733878, 3285377520)
  match st with
  | (h0, h1, h2, h3, h4) => wordHex h0 ++ wordHex h1 ++ wordHex h2 ++ wordHex h3 ++ wordHex h4

/-- `hashlib.sha1(line.encode()).hexdigest()[:8]`, the task fingerprint
(source line 82). -/
def taskHash (line : List Char) : List Char :=
  (sha1Hex (line.flatMap utf8Bytes)).take 8

/-- The characters of `one:` — the tail of the key `done:`. -/
def doneTail : List Char := ("one:").toList

/-- The characters of `ue:` — the tail of the key `due:`. -/
def dueTail : List Char := ("ue:").toList

/-- The characters of `prev:` — the tail of the key `_prev:`. -/
def prevTail : List Char := ("prev:").toList

/-- The characters of `ec:` — the tail of the key `rec:`. -/
def recTail : List Char := ("ec:").toList

/-- `re.search(key + r":(\S+)", line)`: leftmost occurrence of the literal key
`k0 :: ks` followed by a nonempty maximal run of non-whitespace; returns the
run.  A key occurrence with an empty value is not a match and scanning
continues at the next character, exactly as the regex engine does. -/
def scanSearch (k0 : Char) (ks : List Char) : List Char → Option (List Char)
  | [] => none
  | c :: cs =>
    if c = k0 ∧ ks.isPrefixOf cs then
      let v := (cs.drop ks.length).takeWhile (fun d => !pyIsSpace d)
      if v = [] then scanSearch k0 ks cs else some v
    else scanSearch k0 ks cs

/-- `re.search(r"done:(\S+)", line)` (source line 75). -/
def searchDone (l : List Char) : Option (List Char) := scanSearch 'd' doneTail l

/-- `re.search(r"due:(\S+)", line)` (source line 92). -/
def searchDue (l : List Char) : Option (List Char) := scanSearch 'd' dueTail l

/-- `re.findall(key + r":(\S+)", text)`, fuel-driven: all non-overlapping
matches, left to right; after a match the scan resumes after the value. -/
def scanValsF (k0 : Char) (ks : List Char) : Nat → List Char → List (List Char)
  | _, [] => []
  | 0, _ => []
  | f + 1, c :: cs =>
    if c = k0 ∧ ks.isPrefixOf cs then
      let v := (cs.drop ks.length).takeWhile (fun d => !pyIsSpace d)
      if v = [] then scanValsF k0 ks f cs
      else v :: scanValsF k0 ks f ((cs.drop ks.length).drop v.length)
    else scanValsF k0 ks f cs

/-- `re.findall` wrapper with sufficient fuel. -/
def scanVals (k0 : Char) (ks : List Char) (l : List Char) : List (List Char) :=
  scanValsF k0 ks l.length l

/-- `re.findall(r"_prev:(\S+)", text)` (source line 62). -/
def prevVals (t : List Char) : List (List Char) := scanVals '_' prevTail t

/-- `re.sub(key + r":\S+", "", line)`, fuel-driven: every non-overlapping
match of the key followed by a nonempty non-whitespace run is deleted. -/
def scanRemoveF (k0 : Char) (ks : List Char) : Nat → List Char → List Char
  | _, [] => []
  | 0, l => l
  | f + 1, c :: cs =>
    if c = k0 ∧ ks.isPrefixOf cs then
      let v := (cs.drop ks.length).takeWhile (fun d => !pyIsSpace d)
      if v = [] then c :: scanRemoveF k0 ks f cs
      else scanRemoveF k0 ks f ((cs.drop ks.length).drop v.length)
    else c :: scanRemoveF k0 ks f cs

/-- `re.sub` wrapper with sufficient fuel. -/
def scanRemove (k0 : Char) (ks : List Char) (l : List Char) : List Char :=
  scanRemoveF k0 ks l.length l

/-- `re.sub(r"done:\S+", "", line)` (source line 98). -/
def removeDone (l : List Char) : List Char := scanRemove 'd' doneTail l

/-- `re.sub(r"due:\S+", "", line)` (source line 99). -/
def removeDue (l : List Char) : List Char := scanRemove 'd' dueTail l

/-- Attempt the group `\+?\d+[dwmy]` at the start of `rest` (the part of the
pattern `rec:(\+?\d+[dwmy])` after the literal key).  The regex engine takes
the optional `+`, then a maximal digit run, then requires a unit character;
backtracking cannot rescue a failure because no digit is a unit. -/
def tryRec (rest : List Char) : Option (List Char) :=
  let hasPlus := rest.head? = some '+'
  let r1 := if hasPlus then rest.tail else rest
  let ds := r1.takeWhile Char.isDigit
  if ds = [] then none
  else
    match (r1.drop ds.length).head? with
    | some u =>
      if u = 'd' ∨ u = 'w' ∨ u = 'm' ∨ u = 'y' then
        some ((if hasPlus then ['+'] else []) ++ ds ++ [u])
      else none
    | none => none

/-- `re.search(r"rec:(\+?\d+[dwmy])", line)` (source line 70). -/
def searchRec : List Char → Option (List Char)
  | [] => none
  | c :: cs =>
    if c = 'r' ∧ recTail.isPrefixOf cs then
      match tryRec (cs.drop 3) with
      | some g => some g
      | none => searchRec cs
    else searchRec cs

/-- Split text into lines at `'\n'` — the line structure seen by the
`re.MULTILINE` anchors `^` and `$`. -/
def splitNl : List Char → List (List Char)
  | [] => [[]]
  | c :: cs =>
    if c = '\n' then [] :: splitNl cs
    else
      let r := splitNl cs
      (c :: r.headI) :: r.tail

/-- `"\n".join(tasks)` (source line 110). -/
def joinNl : List (List Char) → List Char
  | [] => []
  | [l] => l
  | l :: ls => l ++ '\n' :: joinNl ls

/-- `re.finditer(r"^x (.+)$", text, re.MULTILINE)` applied to one line:
the completed-task body after the `x ` marker, if the line matches. -/
def bodyOf : List Char → Option (List Char)
  | c1 :: c2 :: c3 :: rest => if c1 = 'x' ∧ c2 = ' ' then some (c3 :: rest) else none
  | _ => none

/-- The bodies of all completed-task lines, in text order. -/
def bodiesOf (t : List Char) : List (List Char) := (splitNl t).filterMap bodyOf

/-- A Python `datetime.date` value (year, month, day). -/
structure PyDate where
  year : Nat
  month : Nat
  day : Nat
deriving DecidableEq, Repr

/-- `calendar.isleap`, as used through `calendar.monthrange`. -/
def isLeap (y : Nat) : Bool := y % 4 = 0 && (y % 100 != 0 || y % 400 = 0)

/-- `calendar.monthrange(y, m)[1]`: the number of days of month `m` of year
`y` (source lines 39, 43). -/
def monthrange (y m : Nat) : Nat :=
  if m = 2 then (if isLeap y then 29 else 28)
  else if m = 4 ∨ m = 6 ∨ m = 9 ∨ m = 11 then 30 else 31

/-- The dates representable by `datetime` (`MINYEAR = 1`, `MAXYEAR = 9999`). -/
def validDate (D : PyDate) : Bool :=
  1 ≤ D.year && D.year ≤ 9999 && 1 ≤ D.month && D.month ≤ 12 &&
    1 ≤ D.day && D.day ≤ monthrange D.year D.month

/-- Rata-die style day count (days since 0000-03-01 of the proleptic
Gregorian calendar), the standard civil-calendar encoding underlying
`datetime` day arithmetic. -/
def toDays (D : PyDate) : Nat :=
  let y := if D.month ≤ 2 then D.year - 1 else D.year
  let mp := if D.month ≤ 2 then D.month + 9 else D.month - 3
  365 * y + y / 4 + y / 400 + (153 * mp + 2) / 5 + (D.day - 1) - y / 100

/-- Inverse of `toDays` (Gregorian civil-from-days). -/
def fromDays (n : Nat) : PyDate :=
  let era := n / 146097
  let doe := n % 146097
  let yoe := (doe + doe / 36524 - (doe / 1460 + doe / 146096)) / 365
  let doy := doe - (365 * yoe + yoe / 4 - yoe / 100)
  let mp := (5 * doy + 2) / 153
  let d := doy - (153 * mp + 2) / 5 + 1
  let m := if mp < 10 then mp + 3 else mp - 9
  if m ≤ 2 then ⟨yoe + era * 400 + 1, m, d⟩ else ⟨yoe + era * 400, m, d⟩

/-- `date + timedelta(days = n)`: exact calendar day addition. -/
def addDays (D : PyDate) (n : Nat) : PyDate := fromDays (toDays D + n)

/-- The date arithmetic of `_add_recurrence` (source lines 31-44): days and
weeks via `timedelta`, months with floor/mod month arithmetic and day
clamping, years with day clamping; an unknown unit leaves the date
unchanged. -/
def addRecDate (D : PyDate) (amount : Nat) (unit : Char) : PyDate :=
  if unit = 'd' then addDays D amount
  else if unit = 'w' then addDays D (7 * amount)
  else if unit = 'm' then
    let total := D.month - 1 + amount
    let year := D.year + total / 12
    let month := total % 12 + 1
    let day := min D.day (monthrange year month)
    ⟨year, month, day⟩
  else if unit = 'y' then
    let year := D.year + amount
    let day := min D.day (monthrange year D.month)
    ⟨year, D.month, day⟩
  else D

/-- Numeric value of a digit run. -/
def digitsVal (ds : List Char) : Nat := ds.foldl (fun a c => 10 * a + (c.toNat - 48)) 0

/-- `datetime.strptime(s, "%Y-%m-%d")`: one to four year digits, a dash, one
or two month digits, a dash, one or two day digits, nothing else, and the
result must be a representable date; `none` models the `ValueError` raised
otherwise. -/
def parseDate (l : List Char) : Option PyDate :=
  let yds := l.takeWhile Char.isDigit
  let r1 := l.drop yds.length
  if 1 ≤ yds.length ∧ yds.length ≤ 4 ∧ r1.head? = some '-' then
    let mds := r1.tail.takeWhile Char.isDigit
    let r2 := r1.tail.drop mds.length
    if 1 ≤ mds.length ∧ mds.length ≤ 2 ∧ r2.head? = some '-' then
      let dds := r2.tail.takeWhile Char.isDigit
      let r3 := r2.tail.drop dds.length
      if (dds.length = 1 ∨ dds.length = 2) ∧ r3 = [] then
        let D : PyDate := ⟨digitsVal yds, digitsVal mds, digitsVal dds⟩
        if validDate D then some D else none
      else none
    else none
  else none

/-- Decimal digit character of `n < 10`. -/
def digitChar (n : Nat) : Char := Char.ofNat (48 + n)

/-- The decimal digits of `n`, least significant first (fuel-driven). -/
def natToRevDigits : Nat → Nat → List Char
  | 0, _ => []
  | f + 1, n => if n = 0 then [] else digitChar (n % 10) :: natToRevDigits f (n / 10)

/-- The decimal digits of `n`, most significant first (empty for 0). -/
def natDigits (n : Nat) : List Char := (natToRevDigits (n + 1) n).reverse

/-- Zero-pad a digit string on the left to width `w`. -/
def padZeros (w : Nat) (s : List Char) : List Char := List.replicate (w - s.length) '0' ++ s

/-- `date.strftime("%Y-%m-%d")` (source line 45). -/
def formatDate (D : PyDate) : List Char :=
  padZeros 4 (natDigits D.year) ++ '-' :: (padZeros 2 (natDigits D.month) ++ '-' :: padZeros 2 (natDigits D.day))

/-- The exceptions `process_recurring_text` can raise: `TodotxtError` with
its message, or an error raised inside `datetime` (`ValueError` /
`OverflowError`, which the source never catches or distinguishes). -/
inductive PyExn where
  | todotxt : List Char → PyExn
  | valueError : PyExn
deriving DecidableEq, Repr

/-- `rec.lstrip("+")` (source line 28). -/
def dropPlus (l : List Char) : List Char := l.dropWhile (fun c => c = '+')

/-- `int(s)` on the digit run `rec_value[:-1]`. -/
def parseAmount (s : List Char) : Option Nat :=
  if s ≠ [] ∧ s.all Char.isDigit then some (digitsVal s) else none

/-- `_add_recurrence(date_str, rec)` (source lines 18-45): `None`/empty date
gives `None`; otherwise the date string is parsed (`ValueError` when
malformed), the interval is applied, and the result is formatted — a result
past year 9999 models the `ValueError`/`OverflowError` raised by
`date.replace` / `timedelta` overflow. -/
def _add_recurrence (dateStr : Option (List Char)) (rec : List Char) :
    Except PyExn (Option (List Char)) :=
  match dateStr with
  | none => .ok none
  | some ds =>
    if ds = [] then .ok none
    else
      match parseDate ds with
      | none => .error .valueError
      | some date =>
        let recValue := dropPlus rec
        match parseAmount recValue.dropLast with
        | none => .error .valueError
        | some amount =>
          match recValue.getLast? with
          | none => .error .valueError
          | some unit =>
            let res := addRecDate date amount unit
            if res.year ≤ 9999 then .ok (some (formatDate res)) else .error .valueError

/-- The anchor date of a completed recurring task (source lines 88-93):
the done date for flexible recurrence (`rec` starting with `+`), else the
task's `due` value if any. -/
def baseDateOf (line : List Char) (rec doneDate : List Char) : Option (List Char) :=
  if rec.head? = some '+' then some doneDate else searchDue line

/-- Build the successor line (source lines 97-102): drop `done:`/`due:`
tokens, strip, then append ` _prev:<hash>` and, when computed, ` due:<date>`. -/
def buildNewLine (line : List Char) (hsh : List Char) (newDue : Option (List Char)) :
    List Char :=
  let l2 := pyStrip (removeDue (pyStrip (removeDone line)))
  let l3 := l2 ++ ' ' :: ('_' :: prevTail ++ hsh)
  match newDue with
  | some nd => l3 ++ ' ' :: ('d' :: dueTail ++ nd)
  | none => l3

/-- The `TodotxtError` message prefix of source line 78. -/
def missingDoneMsg : List Char := ("Done recurring task missing done: date: ").toList

/-- The loop body of `process_recurring_text` (source lines 67-104) over the
completed-task bodies, with the fixed `existing_prev` collection `prev`:
either an exception or the list of new task lines in source order. -/
def newTasksFor (prev : List (List Char)) : List (List Char) → Except PyExn (List (List Char))
  | [] => .ok []
  | line :: rest =>
    match searchRec line with
    | none => newTasksFor prev rest
    | some rec =>
      match searchDone line with
      | none => .error (.todotxt (missingDoneMsg ++ line))
      | some doneDate =>
        if taskHash line ∈ prev then newTasksFor prev rest
        else
          match _add_recurrence (baseDateOf line rec doneDate) rec with
          | .error e => .error e
          | .ok newDue =>
            match newTasksFor prev rest with
            | .error e => .error e
            | .ok tasks => .ok (buildNewLine line (taskHash line) newDue :: tasks)

/-- The contribution of a single completed-task body to the generated tasks:
`none` when the body is skipped (no rec, missing done handled as an error
elsewhere, already-processed fingerprint, or a date error), otherwise the
successor line. -/
def specEmit (prev : List (List Char)) (line : List Char) : Option (List Char) :=
  match searchRec line with
  | none => none
  | some rec =>
    match searchDone line with
    | none => none
    | some doneDate =>
      if taskHash line ∈ prev then none
      else
        match _add_recurrence (baseDateOf line rec doneDate) rec with
        | .error _ => none
        | .ok newDue => some (buildNewLine line (taskHash line) newDue)

/-- `process_recurring_text(text)` (source lines 48-112). -/
def process_recurring_text (t : List Char) : Except PyExn (List Char) :=
  match newTasksFor (prevVals t) (bodiesOf t) with
  | .error e => .error e
  | .ok [] => .ok t
  | .ok nts =>
    let t1 := if t ≠ [] ∧ t.getLast? ≠ some '\n' then t ++ ['\n'] else t
    .ok (t1 ++ joinNl nts ++ ['\n'])

/-- The generated successor lines of a text (empty also when processing
raises). -/
def okTasks (t : List Char) : List (List Char) :=
  match newTasksFor (prevVals t) (bodiesOf t) with
  | .ok l => l
  | .error _ => []

/-- The output text of a successful run (empty when processing raises). -/
def procOut (t : List Char) : List Char :=
  match process_recurring_text t with
  | .ok o => o
  | .error _ => []

/-- The group `(\d{4}-\d{2}-\d{2})` at the start of a list. -/
def dateShape : List Char → Option (List Char)
  | a :: b :: c :: d :: '-' :: e :: f :: '-' :: g :: h :: _ =>
    if a.isDigit ∧ b.isDigit ∧ c.isDigit ∧ d.isDigit ∧ e.isDigit ∧ f.isDigit ∧
        g.isDigit ∧ h.isDigit
    then some [a, b, c, d, '-', e, f, '-', g, h] else none
  | _ => none

/-- `re.search(r"due:(\d{4}-\d{2}-\d{2})", line)` (source line 128). -/
def searchDueDate : List Char → Option (List Char)
  | [] => none
  | c :: cs =>
    if c = 'd' ∧ dueTail.isPrefixOf cs then
      match dateShape (cs.drop 3) with
      | some v => some v
      | none => searchDueDate cs
    else searchDueDate cs

/-- Python string `<=`: lexicographic comparison by code point. -/
def strLe : List Char → List Char → Bool
  | [], _ => true
  | _ :: _, [] => false
  | a :: as, b :: bs => if a = b then strLe as bs else decide (a < b)

/-- One line of `find_past_due` (source lines 125-133): the line must match
`^(?!x )(\S.*)$` and carry a `due:` value of shape `\d{4}-\d{2}-\d{2}` that
is lexicographically at most `today`. -/
def pastDueLine (today l : List Char) : Option (List Char) :=
  match l with
  | [] => none
  | c :: _ =>
    if pyIsSpace c then none
    else if l.take 2 = ['x', ' '] then none
    else
      match searchDueDate l with
      | none => none
      | some v => if strLe v today then some l else none

/-- `find_past_due(text, today)` (source lines 115-135). -/
def find_past_due (t today : List Char) : List (List Char) :=
  (splitNl t).filterMap (pastDueLine today)

/-- Modelled from the spec: the claim of C2 reads a completion date off a
`done` field *or* a `completed` field; the spec's recognized metadata keys
include `done`/`completed`.  The source has no such lookup, so the spec's
completion-date test is modelled here for comparison. -/
def specCompletionDate (line : List Char) : Option (List Char) :=
  match searchDone line with
  | some v => some v
  | none => scanSearch 'c' (("ompleted:").toList) line

/-- Two adjacent literal spaces somewhere in the list. -/
def hasDoubleSpace : List Char → Bool
  | c1 :: c2 :: rest => (c1 = ' ' && c2 = ' ') || hasDoubleSpace (c2 :: rest)
  | _ => false

/-- Date-like values: decimal digits and dashes. -/
def dateChars (v : List Char) : Prop := ∀ c ∈ v, c.isDigit = true ∨ c = '-'

/-- Remove trailing whitespace (the right half of `str.strip`). -/
def rstrip (l : List Char) : List Char := (l.reverse.dropWhile pyIsSpace).reverse

/-- The keep-condition of `find_past_due` for one line, as a Boolean:
nonempty non-indented line, not completed, with a shaped due date at most
`today`. -/
def pastDueKeep (today l : List Char) : Bool :=
  match l with
  | [] => false
  | c :: _ =>
    !pyIsSpace c && !(l.take 2 = ['x', ' '] : Bool) &&
      (match searchDueDate l with
       | some v => strLe v today
       | none => false)

/-- Decidable equality of processing results. -/
instance exceptDecEq {E A : Type} [DecidableEq E] [DecidableEq A] :
    DecidableEq (Except E A) := fun x y =>
  match x, y with
  | .ok a, .ok b =>
    if h : a = b then isTrue (by rw [h]) else
      isFalse (by intro hc; injection hc; contradiction)
  | .error a, .error b =>
    if h : a = b then isTrue (by rw [h]) else
      isFalse (by intro hc; injection hc; contradiction)
  | .ok _, .error _ => isFalse (by intro hc; exact Except.noConfusion hc)
  | .error _, .ok _ => isFalse (by intro hc; exact Except.noConfusion hc)

/-- Whether a processing result is a raised `TodotxtError`. -/
def isTodoErr {A : Type} : Except PyExn A → Bool
  | .error (.todotxt _) => true
  | _ => false

/-- A list is empty or starts with a whitespace character. -/
def spaceHead (l : List Char) : Prop :=
  l = [] ∨ ∃ w l', l = w :: l' ∧ pyIsSpace w = true

/-- Lowercase hexadecimal characters. -/
def isHexChar (c : Char) : Bool := c.isDigit || (97 ≤ c.toNat && c.toNat ≤ 102)

/-! ## Scanner infrastructure lemmas -/

lemma length_le_of_isPrefixOf {ks l : List Char} (h : ks.isPrefixOf l) :
    ks.length ≤ l.length :=
  (List.isPrefixOf_iff_prefix.mp h).length_le

/-- A key of non-whitespace characters matches across an appended
whitespace-headed tail exactly when it matches the prefix alone. -/
lemma isPrefixOf_append_space {ks a X : List Char} {w : Char}
    (hks : ∀ c ∈ ks, pyIsSpace c = false) (hw : pyIsSpace w = true) :
    ks.isPrefixOf (a ++ w :: X) = ks.isPrefixOf a := by
  cases hp : ks.isPrefixOf a with
  | true =>
    exact List.isPrefixOf_iff_prefix.mpr
      ((List.isPrefixOf_iff_prefix.mp hp).trans (List.prefix_append a (w :: X)))
  | false =>
    cases hq : ks.isPrefixOf (a ++ w :: X) with
    | false => rfl
    | true =>
      exfalso
      have hpre : ks = (a ++ w :: X).take ks.length :=
        List.prefix_iff_eq_take.mp (List.isPrefixOf_iff_prefix.mp hq)
      by_cases hlen : ks.length ≤ a.length
      · have : ks <+: a := by
          rw [List.prefix_iff_eq_take, ← List.take_append_of_le_length hlen]
          exact hpre
        rw [List.isPrefixOf_iff_prefix.mpr this] at hp
        exact Bool.noConfusion hp
      · push_neg at hlen
        have hwmem : w ∈ ks := by
          rw [hpre, List.take_append_eq_append_take]
          refine List.mem_append_right _ ?_
          have h1 : 1 ≤ ks.length - a.length := by omega
          cases hh : (ks.length - a.length) with
          | zero => omega
          | succ m => simp [List.take_cons]
        rw [hks w hwmem] at hw
        exact Bool.false_ne_true hw

/-- `takeWhile` of non-whitespace never crosses an appended
whitespace-headed tail. -/
lemma takeWhile_append_space {a X : List Char} {w : Char} (hw : pyIsSpace w = true) :
    (a ++ w :: X).takeWhile (fun d => !pyIsSpace d) =
      a.takeWhile (fun d => !pyIsSpace d) := by
  induction a with
  | nil => simp [List.takeWhile_cons, hw]
  | cons c cs ih =>
    by_cases h : pyIsSpace c <;> simp [List.takeWhile_cons, h, ih]

lemma space_ne_of_nonspace {w k0 : Char} (hk0 : pyIsSpace k0 = false)
    (hw : pyIsSpace w = true) : ¬ (w = k0) := by
  intro h; rw [h, hk0] at hw; exact Bool.false_ne_true hw

/-- Splitting a search at a whitespace character: the leftmost match of the
whole is the leftmost match of the left part, else of the right part. -/
lemma scanSearch_append_space {k0 : Char} {ks : List Char}
    (hk0 : pyIsSpace k0 = false) (hks : ∀ c ∈ ks, pyIsSpace c = false)
    {w : Char} (hw : pyIsSpace w = true) :
    ∀ (n : Nat) (a : List Char), a.length ≤ n → ∀ b : List Char,
      scanSearch k0 ks (a ++ w :: b) =
        (scanSearch k0 ks a).elim (scanSearch k0 ks b) some := by
  intro n
  induction n with
  | zero =>
    intro a ha b
    have : a = [] := List.length_eq_zero.mp (Nat.le_zero.mp ha)
    subst this
    simp [scanSearch, space_ne_of_nonspace hk0 hw]
  | succ n ih =>
    intro a ha b
    cases a with
    | nil => simp [scanSearch, space_ne_of_nonspace hk0 hw]
    | cons c cs =>
      simp only [List.cons_append]
      by_cases hcond : c = k0 ∧ ks.isPrefixOf cs
      · have hlen : ks.length ≤ cs.length := length_le_of_isPrefixOf hcond.2
        have hpre2 : ks.isPrefixOf (cs ++ w :: b) = true := by
          rw [isPrefixOf_append_space hks hw]; exact hcond.2
        have hvs : ((cs ++ w :: b).drop ks.length).takeWhile (fun d => !pyIsSpace d) =
            (cs.drop ks.length).takeWhile (fun d => !pyIsSpace d) := by
          rw [List.drop_append_of_le_length hlen, takeWhile_append_space hw]
        simp only [scanSearch, hcond.1, hpre2, hcond.2, and_self, if_true, hvs]
        by_cases hv : (cs.drop ks.length).takeWhile (fun d => !pyIsSpace d) = []
        · have hcs : cs.length ≤ n := by simp at ha; omega
          simp only [hv, if_pos rfl]
          exact ih cs hcs b
        · simp [hv]
      · have hcond2 : ¬ (c = k0 ∧ ks.isPrefixOf (cs ++ w :: b)) := by
          rw [isPrefixOf_append_space hks hw]; exact hcond
        have hcs : cs.length ≤ n := by simp at ha; omega
        simp only [scanSearch, if_neg hcond, if_neg hcond2]
        exact ih cs hcs b

lemma scanValsF_fuel (k0 : Char) (ks : List Char) :
    ∀ (f g : Nat) (l : List Char), l.length ≤ f → l.length ≤ g →
      scanValsF k0 ks f l = scanValsF k0 ks g l := by
  intro f
  induction f with
  | zero =>
    intro g l hf _
    have : l = [] := List.length_eq_zero.mp (Nat.le_zero.mp hf)
    subst this
    cases g <;> rfl
  | succ f ih =>
    intro g l hf hg
    cases l with
    | nil => cases g <;> rfl
    | cons c cs =>
      cases g with
      | zero => simp at hg
      | succ g =>
        have hf' : cs.length ≤ f := by simp at hf; omega
        have hg' : cs.length ≤ g := by simp at hg; omega
        have hlen : ((cs.drop ks.length).drop
            ((cs.drop ks.length).takeWhile (fun d => !pyIsSpace d)).length).length ≤
            cs.length := by
          simp only [List.length_drop]; omega
        simp only [scanValsF]
        by_cases hcond : c = k0 ∧ ks.isPrefixOf cs
        · simp only [if_pos hcond]
          by_cases hv : ((cs.drop ks.length).takeWhile (fun d => !pyIsSpace d)) = []
          · simp only [if_pos hv]
            exact ih g cs hf' hg'
          · simp only [if_neg hv]
            rw [ih g _ (le_trans hlen hf') (le_trans hlen hg')]
        · simp only [if_neg hcond]
          exact ih g cs hf' hg'

lemma scanRemoveF_fuel (k0 : Char) (ks : List Char) :
    ∀ (f g : Nat) (l : List Char), l.length ≤ f → l.length ≤ g →
      scanRemoveF k0 ks f l = scanRemoveF k0 ks g l := by
  intro f
  induction f with
  | zero =>
    intro g l hf _
    have : l = [] := List.length_eq_zero.mp (Nat.le_zero.mp hf)
    subst this
    cases g <;> rfl
  | succ f ih =>
    intro g l hf hg
    cases l with
    | nil => cases g <;> rfl
    | cons c cs =>
      cases g with
      | zero => simp at hg
      | succ g =>
        have hf' : cs.length ≤ f := by simp at hf; omega
        have hg' : cs.length ≤ g := by simp at hg; omega
        have hlen : ((cs.drop ks.length).drop
            ((cs.drop ks.length).takeWhile (fun d => !pyIsSpace d)).length).length ≤
            cs.length := by
          simp only [List.length_drop]; omega
        simp only [scanRemoveF]
        by_cases hcond : c = k0 ∧ ks.isPrefixOf cs
        · simp only [if_pos hcond]
          by_cases hv : ((cs.drop ks.length).takeWhile (fun d => !pyIsSpace d)) = []
          · simp only [if_pos hv]
            rw [ih g cs hf' hg']
          · simp only [if_neg hv]
            exact ih g _ (le_trans hlen hf') (le_trans hlen hg')
        · simp only [if_neg hcond]
          rw [ih g cs hf' hg']

lemma scanVals_nil (k0 : Char) (ks : List Char) : scanVals k0 ks [] = [] := rfl

/-- Unfolding equation for `scanVals` on a cons cell. -/
lemma scanVals_cons (k0 : Char) (ks : List Char) (c : Char) (cs : List Char) :
    scanVals k0 ks (c :: cs) =
      if c = k0 ∧ ks.isPrefixOf cs then
        (if (cs.drop ks.length).takeWhile (fun d => !pyIsSpace d) = []
         then scanVals k0 ks cs
         else ((cs.drop ks.length).takeWhile (fun d => !pyIsSpace d)) ::
           scanVals k0 ks ((cs.drop ks.length).drop
             ((cs.drop ks.length).takeWhile (fun d => !pyIsSpace d)).length))
      else scanVals k0 ks cs := by
  have hlen : ((cs.drop ks.length).drop
      ((cs.drop ks.length).takeWhile (fun d => !pyIsSpace d)).length).length ≤
      cs.length := by
    simp only [List.length_drop]; omega
  show scanValsF k0 ks (cs.length + 1) (c :: cs) = _
  simp only [scanValsF]
  by_cases hcond : c = k0 ∧ ks.isPrefixOf cs
  · simp only [if_pos hcond]
    by_cases hv : ((cs.drop ks.length).takeWhile (fun d => !pyIsSpace d)) = []
    · simp only [if_pos hv]
      rfl
    · simp only [if_neg hv]
      rw [show scanValsF k0 ks cs.length ((cs.drop ks.length).drop
          ((cs.drop ks.length).takeWhile (fun d => !pyIsSpace d)).length) =
          scanVals k0 ks ((cs.drop ks.length).drop
          ((cs.drop ks.length).takeWhile (fun d => !pyIsSpace d)).length) from
        scanValsF_fuel k0 ks cs.length _ _ hlen (le_refl _)]
  · simp only [if_neg hcond]
    rfl

lemma scanRemove_nil (k0 : Char) (ks : List Char) : scanRemove k0 ks [] = [] := rfl

/-- Unfolding equation for `scanRemove` on a cons cell. -/
lemma scanRemove_cons (k0 : Char) (ks : List Char) (c : Char) (cs : List Char) :
    scanRemove k0 ks (c :: cs) =
      if c = k0 ∧ ks.isPrefixOf cs then
        (if (cs.drop ks.length).takeWhile (fun d => !pyIsSpace d) = []
         then c :: scanRemove k0 ks cs
         else scanRemove k0 ks ((cs.drop ks.length).drop
             ((cs.drop ks.length).takeWhile (fun d => !pyIsSpace d)).length))
      else c :: scanRemove k0 ks cs := by
  have hlen : ((cs.drop ks.length).drop
      ((cs.drop ks.length).takeWhile (fun d => !pyIsSpace d)).length).length ≤
      cs.length := by
    simp only [List.length_drop]; omega
  show scanRemoveF k0 ks (cs.length + 1) (c :: cs) = _
  simp only [scanRemoveF]
  by_cases hcond : c = k0 ∧ ks.isPrefixOf cs
  · simp only [if_pos hcond]
    by_cases hv : ((cs.drop ks.length).takeWhile (fun d => !pyIsSpace d)) = []
    · simp only [if_pos hv]
      rfl
    · simp only [if_neg hv]
      exact scanRemoveF_fuel k0 ks cs.length _ _ hlen (le_refl _)
  · simp only [if_neg hcond]
    rfl

/-- Splitting `re.findall` at a whitespace character: matches never cross
whitespace, so the value lists concatenate. -/
lemma scanVals_append_space {k0 : Char} {ks : List Char}
    (hk0 : pyIsSpace k0 = false) (hks : ∀ c ∈ ks, pyIsSpace c = false)
    {w : Char} (hw : pyIsSpace w = true) :
    ∀ (n : Nat) (a : List Char), a.length ≤ n → ∀ b : List Char,
      scanVals k0 ks (a ++ w :: b) = scanVals k0 ks a ++ scanVals k0 ks b := by
  intro n
  induction n with
  | zero =>
    intro a ha b
    have : a = [] := List.length_eq_zero.mp (Nat.le_zero.mp ha)
    subst this
    simp [scanVals_cons, scanVals_nil, space_ne_of_nonspace hk0 hw]
  | succ n ih =>
    intro a ha b
    cases a with
    | nil => simp [scanVals_cons, scanVals_nil, space_ne_of_nonspace hk0 hw]
    | cons c cs =>
      have hcs : cs.length ≤ n := by simp at ha; omega
      simp only [List.cons_append]
      rw [scanVals_cons, scanVals_cons]
      by_cases hcond : c = k0 ∧ ks.isPrefixOf cs
      · have hlen : ks.length ≤ cs.length := length_le_of_isPrefixOf hcond.2
        have hpre2 : ks.isPrefixOf (cs ++ w :: b) = true := by
          rw [isPrefixOf_append_space hks hw]; exact hcond.2
        have hdrop : (cs ++ w :: b).drop ks.length = cs.drop ks.length ++ w :: b :=
          List.drop_append_of_le_length hlen
        simp only [if_pos hcond, if_pos (And.intro hcond.1 hpre2), hdrop,
          takeWhile_append_space hw]
        by_cases hv : (cs.drop ks.length).takeWhile (fun d => !pyIsSpace d) = []
        · simp only [if_pos hv]
          exact ih cs hcs b
        · simp only [if_neg hv]
          have hvlen : ((cs.drop ks.length).takeWhile (fun d => !pyIsSpace d)).length ≤
              (cs.drop ks.length).length :=
            (List.takeWhile_prefix _).length_le
          rw [List.drop_append_of_le_length hvlen]
          rw [ih _ (by simp only [List.length_drop]; omega) b]
          simp
      · have hcond2 : ¬ (c = k0 ∧ ks.isPrefixOf (cs ++ w :: b)) := by
          rw [isPrefixOf_append_space hks hw]; exact hcond
        simp only [if_neg hcond, if_neg hcond2]
        exact ih cs hcs b

/-- Splitting `re.sub` at a whitespace character: deletions never cross
whitespace. -/
lemma scanRemove_append_space {k0 : Char} {ks : List Char}
    (hk0 : pyIsSpace k0 = false) (hks : ∀ c ∈ ks, pyIsSpace c = false)
    {w : Char} (hw : pyIsSpace w = true) :
    ∀ (n : Nat) (a : List Char), a.length ≤ n → ∀ b : List Char,
      scanRemove k0 ks (a ++ w :: b) = scanRemove k0 ks a ++ w :: scanRemove k0 ks b := by
  intro n
  induction n with
  | zero =>
    intro a ha b
    have : a = [] := List.length_eq_zero.mp (Nat.le_zero.mp ha)
    subst this
    simp [scanRemove_cons, scanRemove_nil, space_ne_of_nonspace hk0 hw]
  | succ n ih =>
    intro a ha b
    cases a with
    | nil => simp [scanRemove_cons, scanRemove_nil, space_ne_of_nonspace hk0 hw]
    | cons c cs =>
      have hcs : cs.length ≤ n := by simp at ha; omega
      simp only [List.cons_append]
      rw [scanRemove_cons, scanRemove_cons]
      by_cases hcond : c = k0 ∧ ks.isPrefixOf cs
      · have hlen : ks.length ≤ cs.length := length_le_of_isPrefixOf hcond.2
        have hpre2 : ks.isPrefixOf (cs ++ w :: b) = true := by
          rw [isPrefixOf_append_space hks hw]; exact hcond.2
        have hdrop : (cs ++ w :: b).drop ks.length = cs.drop ks.length ++ w :: b :=
          List.drop_append_of_le_length hlen
        simp only [if_pos hcond, if_pos (And.intro hcond.1 hpre2), hdrop,
          takeWhile_append_space hw]
        by_cases hv : (cs.drop ks.length).takeWhile (fun d => !pyIsSpace d) = []
        · simp only [if_pos hv]
          rw [ih cs hcs b]
          rfl
        · simp only [if_neg hv]
          have hvlen : ((cs.drop ks.length).takeWhile (fun d => !pyIsSpace d)).length ≤
              (cs.drop ks.length).length :=
            (List.takeWhile_prefix _).length_le
          rw [List.drop_append_of_le_length hvlen]
          exact ih _ (by simp only [List.length_drop]; omega) b
      · have hcond2 : ¬ (c = k0 ∧ ks.isPrefixOf (cs ++ w :: b)) := by
          rw [isPrefixOf_append_space hks hw]; exact hcond
        simp only [if_neg hcond, if_neg hcond2]
        rw [ih cs hcs b]
        rfl

/-! ## Character class facts -/

lemma doneTail_nonspace : ∀ c ∈ doneTail, pyIsSpace c = false := by decide

lemma dueTail_nonspace : ∀ c ∈ dueTail, pyIsSpace c = false := by decide

lemma prevTail_nonspace : ∀ c ∈ prevTail, pyIsSpace c = false := by decide

lemma d_nonspace : pyIsSpace 'd' = false := by decide

lemma us_nonspace : pyIsSpace '_' = false := by decide

lemma sp_space : pyIsSpace ' ' = true := by decide

lemma nl_space : pyIsSpace '\n' = true := by decide

lemma takeWhile_nil_of_spaceHead {l : List Char} (h : spaceHead l) :
    l.takeWhile (fun d => !pyIsSpace d) = [] := by
  rcases h with rfl | ⟨w, l', rfl, hw⟩
  · rfl
  · simp [List.takeWhile_cons, hw]

lemma spaceHead_of_takeWhile_nil {l : List Char}
    (h : l.takeWhile (fun d => !pyIsSpace d) = []) : spaceHead l := by
  cases l with
  | nil => exact Or.inl rfl
  | cons w l' =>
    right
    refine ⟨w, l', rfl, ?_⟩
    by_cases hw : pyIsSpace w = true
    · exact hw
    · simp [List.takeWhile_cons, Bool.eq_false_iff.mpr hw] at h

/-! ## scanSearch basic lemmas -/

lemma scanSearch_allspace {k0 : Char} {ks : List Char} (hk0 : pyIsSpace k0 = false) :
    ∀ s, (∀ c ∈ s, pyIsSpace c = true) → scanSearch k0 ks s = none := by
  intro s
  induction s with
  | nil => intro _; rfl
  | cons c cs ih =>
    intro h
    have hc : pyIsSpace c = true := h c (List.mem_cons_self c cs)
    have hne : ¬ (c = k0 ∧ ks.isPrefixOf cs) := by
      rintro ⟨rfl, _⟩; rw [hk0] at hc; exact Bool.noConfusion hc
    simp only [scanSearch, if_neg hne]
    exact ih (fun d hd => h d (List.mem_cons_of_mem c hd))

lemma scanSearch_tail_none {k0 : Char} {ks : List Char} {c : Char} {cs : List Char}
    (h : scanSearch k0 ks (c :: cs) = none) : scanSearch k0 ks cs = none := by
  by_cases hcond : c = k0 ∧ ks.isPrefixOf cs
  · by_cases hv : ((cs.drop ks.length).takeWhile (fun d => !pyIsSpace d)) = []
    · simpa only [scanSearch, if_pos hcond, if_pos hv] using h
    · simp only [scanSearch, if_pos hcond, if_neg hv] at h
      exact Option.noConfusion h
  · simpa only [scanSearch, if_neg hcond] using h

lemma scanSearch_cons_none_parts {k0 : Char} {ks : List Char} {c : Char} {cs : List Char}
    (h : scanSearch k0 ks (c :: cs) = none) :
    c = k0 ∧ ks.isPrefixOf cs →
      (cs.drop ks.length).takeWhile (fun d => !pyIsSpace d) = [] := by
  intro hcond
  by_cases hv : ((cs.drop ks.length).takeWhile (fun d => !pyIsSpace d)) = []
  · exact hv
  · simp only [scanSearch, if_pos hcond, if_neg hv] at h
    exact Option.noConfusion h

lemma scanSearch_suffix_none {k0 : Char} {ks : List Char} {x y : List Char}
    (hs : y <:+ x) (h : scanSearch k0 ks x = none) : scanSearch k0 ks y = none := by
  induction x with
  | nil =>
    rw [List.suffix_nil.mp hs]
    exact h
  | cons c cs ih =>
    rcases List.suffix_cons_iff.mp hs with rfl | h2
    · exact h
    · exact ih h2 (scanSearch_tail_none h)

lemma scanSearch_dropWhile_space {k0 : Char} {ks : List Char}
    (hk0 : pyIsSpace k0 = false) (y : List Char) :
    scanSearch k0 ks (y.dropWhile pyIsSpace) = scanSearch k0 ks y := by
  induction y with
  | nil => rfl
  | cons c cs ih =>
    by_cases hc : pyIsSpace c = true
    · have hne : ¬ (c = k0 ∧ ks.isPrefixOf cs) := by
        rintro ⟨rfl, _⟩; rw [hk0] at hc; exact Bool.noConfusion hc
      rw [List.dropWhile_cons_of_pos hc, ih]
      conv_rhs => rw [scanSearch]
      rw [if_neg hne]
    · rw [List.dropWhile_cons_of_neg (by simpa using hc)]

lemma scanSearch_append_allspace {k0 : Char} {ks : List Char}
    (hk0 : pyIsSpace k0 = false) (hks : ∀ c ∈ ks, pyIsSpace c = false)
    {s : List Char} (hsp : ∀ c ∈ s, pyIsSpace c = true) (z : List Char) :
    scanSearch k0 ks (z ++ s) = scanSearch k0 ks z := by
  cases s with
  | nil => simp
  | cons w s' =>
    rw [scanSearch_append_space hk0 hks (hsp w (List.mem_cons_self w s')) z.length z
      (le_refl _) s']
    rw [scanSearch_allspace hk0 s' (fun c hc => hsp c (List.mem_cons_of_mem w hc))]
    cases h : scanSearch k0 ks z <;> simp

/-- `str.strip()` does not change the result of a key-value search. -/
lemma scanSearch_pyStrip {k0 : Char} {ks : List Char}
    (hk0 : pyIsSpace k0 = false) (hks : ∀ c ∈ ks, pyIsSpace c = false) (y : List Char) :
    scanSearch k0 ks (pyStrip y) = scanSearch k0 ks y := by
  unfold pyStrip
  have hdecomp : y.dropWhile pyIsSpace =
      ((y.dropWhile pyIsSpace).reverse.dropWhile pyIsSpace).reverse ++
        ((y.dropWhile pyIsSpace).reverse.takeWhile pyIsSpace).reverse := by
    conv_lhs => rw [← List.reverse_reverse (y.dropWhile pyIsSpace),
      ← @List.takeWhile_append_dropWhile Char pyIsSpace ((y.dropWhile pyIsSpace).reverse)]
    rw [List.reverse_append]
  have hsp : ∀ c ∈ ((y.dropWhile pyIsSpace).reverse.takeWhile pyIsSpace).reverse,
      pyIsSpace c = true := by
    intro c hc
    rw [List.mem_reverse] at hc
    exact List.mem_takeWhile_imp hc
  calc scanSearch k0 ks ((y.dropWhile pyIsSpace).reverse.dropWhile pyIsSpace).reverse
      = scanSearch k0 ks (((y.dropWhile pyIsSpace).reverse.dropWhile pyIsSpace).reverse ++
          ((y.dropWhile pyIsSpace).reverse.takeWhile pyIsSpace).reverse) :=
        (scanSearch_append_allspace hk0 hks hsp _).symm
    _ = scanSearch k0 ks (y.dropWhile pyIsSpace) := by rw [← hdecomp]
    _ = scanSearch k0 ks y := scanSearch_dropWhile_space hk0 y

/-! ## scanRemove structural lemmas -/

lemma drop_takeWhile_length (p : Char → Bool) (l : List Char) :
    l.drop (l.takeWhile p).length = l.dropWhile p := by
  induction l with
  | nil => rfl
  | cons c cs ih =>
    by_cases hc : p c
    · rw [List.takeWhile_cons_of_pos hc, List.dropWhile_cons_of_pos hc]
      simpa using ih
    · rw [List.takeWhile_cons_of_neg (by simpa using hc), List.dropWhile_cons_of_neg (by simpa using hc)]
      rfl

lemma dropWhile_head_not (p : Char → Bool) :
    ∀ (l : List Char) (w : Char) (l' : List Char), l.dropWhile p = w :: l' → p w = false := by
  intro l
  induction l with
  | nil => intro w l' h; exact absurd h (by simp)
  | cons c cs ih =>
    intro w l' h
    by_cases hc : p c
    · rw [List.dropWhile_cons_of_pos hc] at h
      exact ih w l' h
    · rw [List.dropWhile_cons_of_neg hc] at h
      injection h with h1 _
      subst h1
      simpa using hc

lemma spaceHead_dropWhile_nonsp (l : List Char) :
    spaceHead (l.dropWhile (fun d => !pyIsSpace d)) := by
  cases h : l.dropWhile (fun d => !pyIsSpace d) with
  | nil => exact Or.inl rfl
  | cons w l' =>
    right
    refine ⟨w, l', rfl, ?_⟩
    have := dropWhile_head_not (fun d => !pyIsSpace d) l w l' h
    simpa using this

/-- A text with no key-value match is unchanged by the deletion. -/
lemma scanRemove_of_search_none {k0 : Char} {ks : List Char} :
    ∀ x, scanSearch k0 ks x = none → scanRemove k0 ks x = x := by
  intro x
  induction x with
  | nil => intro _; rfl
  | cons c cs ih =>
    intro h
    rw [scanRemove_cons]
    by_cases hcond : c = k0 ∧ ks.isPrefixOf cs
    · have hv := scanSearch_cons_none_parts h hcond
      rw [if_pos hcond, if_pos hv, ih (scanSearch_tail_none h)]
    · rw [if_neg hcond, ih (scanSearch_tail_none h)]

/-- The deletion scan passes unchanged over characters that cannot start the
key. -/
lemma scanRemove_pass {k0 : Char} {ks : List Char} :
    ∀ (a : List Char), (∀ c ∈ a, ¬ c = k0) → ∀ b,
      scanRemove k0 ks (a ++ b) = a ++ scanRemove k0 ks b := by
  intro a
  induction a with
  | nil => intro _ b; rfl
  | cons c cs ih =>
    intro h b
    have hc : ¬ (c = k0 ∧ ks.isPrefixOf (cs ++ b)) := by
      rintro ⟨rfl, _⟩
      exact h c (List.mem_cons_self c cs) rfl
    rw [List.cons_append, scanRemove_cons, if_neg hc,
      ih (fun d hd => h d (List.mem_cons_of_mem c hd)) b, List.cons_append]

lemma scanRemove_space_head {k0 : Char} {ks : List Char} (hk0 : pyIsSpace k0 = false)
    {w : Char} {cs : List Char} (hw : pyIsSpace w = true) :
    scanRemove k0 ks (w :: cs) = w :: scanRemove k0 ks cs := by
  rw [scanRemove_cons, if_neg]
  rintro ⟨rfl, _⟩
  rw [hk0] at hw
  exact Bool.noConfusion hw

/-- Structure of the deletion output: either the input is unchanged, or the
output is a literal prefix of the input followed by an empty or
whitespace-headed remainder (everything after the first deletion). -/
lemma scanRemove_decomp {k0 : Char} {ks : List Char} (hk0 : pyIsSpace k0 = false) :
    ∀ (n : Nat) (x : List Char), x.length ≤ n →
      scanRemove k0 ks x = x ∨
        ∃ a s, scanRemove k0 ks x = a ++ s ∧ a = x.take a.length ∧ spaceHead s := by
  intro n
  induction n with
  | zero =>
    intro x hx
    have : x = [] := List.length_eq_zero.mp (Nat.le_zero.mp hx)
    subst this
    exact Or.inl rfl
  | succ n ih =>
    intro x hx
    cases x with
    | nil => exact Or.inl rfl
    | cons c cs =>
      have hcs : cs.length ≤ n := by simp at hx; omega
      rw [scanRemove_cons]
      by_cases hcond : c = k0 ∧ ks.isPrefixOf cs
      · by_cases hv : ((cs.drop ks.length).takeWhile (fun d => !pyIsSpace d)) = []
        · rw [if_pos hcond, if_pos hv]
          rcases ih cs hcs with h1 | ⟨a, s, h1, h2, h3⟩
          · exact Or.inl (by rw [h1])
          · right
            refine ⟨c :: a, s, by rw [h1, List.cons_append], ?_, h3⟩
            simp only [List.length_cons, List.take_succ_cons]
            rw [← h2]
        · rw [if_pos hcond, if_neg hv]
          right
          rw [drop_takeWhile_length]
          have hsh := spaceHead_dropWhile_nonsp (cs.drop ks.length)
          rcases hsh with hnil | ⟨w, l', heq, hw⟩
          · rw [hnil]
            exact ⟨[], [], by simp [scanRemove_nil], rfl, Or.inl rfl⟩
          · rw [heq, scanRemove_space_head hk0 hw]
            exact ⟨[], w :: scanRemove k0 ks l', rfl, rfl, Or.inr ⟨w, _, rfl, hw⟩⟩
      · rw [if_neg hcond]
        rcases ih cs hcs with h1 | ⟨a, s, h1, h2, h3⟩
        · exact Or.inl (by rw [h1])
        · right
          refine ⟨c :: a, s, by rw [h1, List.cons_append], ?_, h3⟩
          simp only [List.length_cons, List.take_succ_cons]
          rw [← h2]

lemma isPrefixOf_of_take {ks a s cs : List Char} (h2 : a = cs.take a.length)
    (hlen : ks.length ≤ a.length) (hpre : ks.isPrefixOf (a ++ s)) :
    ks.isPrefixOf cs := by
  apply List.isPrefixOf_iff_prefix.mpr
  rw [List.prefix_iff_eq_take]
  have h3 : ks = (a ++ s).take ks.length :=
    List.prefix_iff_eq_take.mp (List.isPrefixOf_iff_prefix.mp hpre)
  rw [List.take_append_of_le_length hlen] at h3
  have h4 : a.take ks.length = cs.take ks.length := by
    rw [h2, List.take_take, Nat.min_eq_left hlen]
  rw [← h4]
  exact h3

lemma not_isPrefixOf_decomp {ks a s cs : List Char}
    (hks : ∀ c ∈ ks, pyIsSpace c = false)
    (hnp : ¬ (ks.isPrefixOf cs = true)) (h2 : a = cs.take a.length) (h3 : spaceHead s) :
    ¬ (ks.isPrefixOf (a ++ s) = true) := by
  intro hpre
  by_cases hlen : ks.length ≤ a.length
  · exact hnp (isPrefixOf_of_take h2 hlen hpre)
  · push_neg at hlen
    rcases h3 with rfl | ⟨w, s', rfl, hw⟩
    · rw [List.append_nil] at hpre
      exact absurd (length_le_of_isPrefixOf hpre) (by omega)
    · rw [isPrefixOf_append_space hks hw] at hpre
      exact absurd (length_le_of_isPrefixOf hpre) (by omega)

/-- After deleting every `key:value` occurrence, no `key:value` match
remains: `re.search` on the output of the corresponding `re.sub` fails. -/
lemma scanSearch_scanRemove_self {k0 : Char} {ks : List Char}
    (hk0 : pyIsSpace k0 = false) (hks : ∀ c ∈ ks, pyIsSpace c = false)
    (hno : ∀ c ∈ ks, ¬ c = k0) :
    ∀ (n : Nat) (x : List Char), x.length ≤ n →
      scanSearch k0 ks (scanRemove k0 ks x) = none := by
  intro n
  induction n with
  | zero =>
    intro x hx
    have : x = [] := List.length_eq_zero.mp (Nat.le_zero.mp hx)
    subst this
    rfl
  | succ n ih =>
    intro x hx
    cases x with
    | nil => rfl
    | cons c cs =>
      have hcs : cs.length ≤ n := by simp at hx; omega
      rw [scanRemove_cons]
      by_cases hcond : c = k0 ∧ ks.isPrefixOf cs
      · by_cases hv : ((cs.drop ks.length).takeWhile (fun d => !pyIsSpace d)) = []
        · rw [if_pos hcond, if_pos hv]
          obtain ⟨t, ht⟩ := List.isPrefixOf_iff_prefix.mp hcond.2
          have hdropt : cs.drop ks.length = t := by rw [← ht, List.drop_left]
          have hsht : spaceHead t := by
            apply spaceHead_of_takeWhile_nil
            rw [← hdropt]
            exact hv
          have hpass : scanRemove k0 ks cs = ks ++ scanRemove k0 ks t := by
            rw [← ht]
            exact scanRemove_pass ks hno t
          have hsh1 : spaceHead (scanRemove k0 ks t) := by
            rcases hsht with rfl | ⟨w, t', rfl, hw⟩
            · exact Or.inl rfl
            · rw [scanRemove_space_head hk0 hw]
              exact Or.inr ⟨w, scanRemove k0 ks t', rfl, hw⟩
          rw [hpass]
          have hcond2 : c = k0 ∧ ks.isPrefixOf (ks ++ scanRemove k0 ks t) :=
            ⟨hcond.1, List.isPrefixOf_iff_prefix.mpr (List.prefix_append ks _)⟩
          simp only [scanSearch, if_pos hcond2, List.drop_left,
            if_pos (takeWhile_nil_of_spaceHead hsh1)]
          rw [← hpass]
          exact ih cs hcs
        · rw [if_pos hcond, if_neg hv, drop_takeWhile_length]
          apply ih
          calc ((cs.drop ks.length).dropWhile (fun d => !pyIsSpace d)).length
              ≤ (cs.drop ks.length).length := (List.dropWhile_suffix _).length_le
            _ ≤ cs.length := by simp only [List.length_drop]; omega
            _ ≤ n := hcs
      · rw [if_neg hcond]
        have hnp2 : ¬ (c = k0 ∧ ks.isPrefixOf (scanRemove k0 ks cs)) := by
          rintro ⟨rfl, hpre⟩
          have hnp : ¬ (ks.isPrefixOf cs = true) := fun hp => hcond ⟨rfl, hp⟩
          rcases scanRemove_decomp hk0 cs.length cs (le_refl _) with h1 | ⟨a, s, h1, h2, h3⟩
          · rw [h1] at hpre
            exact hnp hpre
          · rw [h1] at hpre
            exact not_isPrefixOf_decomp hks hnp h2 h3 hpre
        simp only [scanSearch, if_neg hnp2]
        exact ih cs hcs

/-- Deleting one kind of `key:value` token cannot create a match for another
kind: if a search finds nothing before a `re.sub`, it finds nothing after. -/
lemma scanSearch_none_scanRemove {kA0 : Char} {kAs : List Char} {kB0 : Char} {kBs : List Char}
    (hAs : ∀ c ∈ kAs, pyIsSpace c = false) (hB0 : pyIsSpace kB0 = false) :
    ∀ (n : Nat) (x : List Char), x.length ≤ n → scanSearch kA0 kAs x = none →
      scanSearch kA0 kAs (scanRemove kB0 kBs x) = none := by
  intro n
  induction n with
  | zero =>
    intro x hx _
    have : x = [] := List.length_eq_zero.mp (Nat.le_zero.mp hx)
    subst this
    rfl
  | succ n ih =>
    intro x hx h
    cases x with
    | nil => rfl
    | cons c cs =>
      have hcs : cs.length ≤ n := by simp at hx; omega
      have htail : scanSearch kA0 kAs cs = none := scanSearch_tail_none h
      rw [scanRemove_cons]
      have hmid : scanSearch kA0 kAs (c :: scanRemove kB0 kBs cs) = none := by
        have ihtail : scanSearch kA0 kAs (scanRemove kB0 kBs cs) = none := ih cs hcs htail
        by_cases hcondA : c = kA0 ∧ kAs.isPrefixOf (scanRemove kB0 kBs cs)
        · -- the key still matches after deletion: the value must be empty
          have hval : ((scanRemove kB0 kBs cs).drop kAs.length).takeWhile
              (fun d => !pyIsSpace d) = [] := by
            rcases scanRemove_decomp hB0 cs.length cs (le_refl _) with h1 | ⟨a, s, h1, h2, h3⟩
            · rw [h1]
              rw [h1] at hcondA
              exact scanSearch_cons_none_parts h hcondA
            · rw [h1]
              rw [h1] at hcondA
              by_cases hlen : kAs.length ≤ a.length
              · have hpcs : kAs.isPrefixOf cs := isPrefixOf_of_take h2 hlen hcondA.2
                have hv0 := scanSearch_cons_none_parts h ⟨hcondA.1, hpcs⟩
                have hsh0 : spaceHead (cs.drop kAs.length) := spaceHead_of_takeWhile_nil hv0
                rw [List.drop_append_of_le_length hlen]
                have hal : a.length ≤ cs.length := by
                  conv_lhs => rw [h2]
                  simp [List.length_take]
                have hadrop : a.drop kAs.length = (cs.drop kAs.length).take (a.length - kAs.length) := by
                  rw [h2, List.drop_take, List.length_take, Nat.min_eq_left hal]
                apply takeWhile_nil_of_spaceHead
                rcases hsh0 with hnil | ⟨w, r, hr, hw⟩
                · rw [hadrop, hnil, List.take_nil, List.nil_append]
                  exact h3
                · rw [hadrop, hr]
                  cases hlen2 : a.length - kAs.length with
                  | zero =>
                    rw [List.take_zero, List.nil_append]
                    exact h3
                  | succ m =>
                    rw [List.take_succ_cons, List.cons_append]
                    exact Or.inr ⟨w, _, rfl, hw⟩
              · push_neg at hlen
                exfalso
                have hnp : ¬ (kAs.isPrefixOf (a ++ s) = true) := by
                  intro hpre
                  rcases h3 with rfl | ⟨w, s', rfl, hw⟩
                  · rw [List.append_nil] at hpre
                    exact absurd (length_le_of_isPrefixOf hpre) (by omega)
                  · rw [isPrefixOf_append_space hAs hw] at hpre
                    exact absurd (length_le_of_isPrefixOf hpre) (by omega)
                exact hnp hcondA.2
          simp only [scanSearch, if_pos hcondA, if_pos hval]
          exact ihtail
        · simp only [scanSearch, if_neg hcondA]
          exact ihtail
      by_cases hcond : c = kB0 ∧ kBs.isPrefixOf cs
      · by_cases hv : ((cs.drop kBs.length).takeWhile (fun d => !pyIsSpace d)) = []
        · rw [if_pos hcond, if_pos hv]
          exact hmid
        · rw [if_pos hcond, if_neg hv, drop_takeWhile_length]
          have hsuf : (cs.drop kBs.length).dropWhile (fun d => !pyIsSpace d) <:+ cs :=
            (List.dropWhile_suffix _).trans (List.drop_suffix _ _)
          apply ih _ (le_trans hsuf.length_le hcs)
          exact scanSearch_suffix_none (hsuf.trans (List.suffix_cons c cs)) h
      · rw [if_neg hcond]
        exact hmid

/-! ## Line splitting and joining lemmas -/

lemma splitNl_cons (c : Char) (cs : List Char) :
    splitNl (c :: cs) = if c = '\n' then [] :: splitNl cs
      else (c :: (splitNl cs).headI) :: (splitNl cs).tail := rfl

lemma splitNl_ne_nil (t : List Char) : splitNl t ≠ [] := by
  cases t with
  | nil => simp [splitNl]
  | cons c cs => rw [splitNl_cons]; by_cases h : c = '\n' <;> simp [h]

lemma splitNl_eq_cons (t : List Char) : ∃ r0 rs, splitNl t = r0 :: rs := by
  cases hh : splitNl t with
  | nil => exact absurd hh (splitNl_ne_nil t)
  | cons r0 rs => exact ⟨r0, rs, rfl⟩

lemma splitNl_append_nl (a : List Char) : splitNl (a ++ ['\n']) = splitNl a ++ [[]] := by
  induction a with
  | nil => rfl
  | cons c cs ih =>
    by_cases h : c = '\n'
    · subst h
      rw [List.cons_append, splitNl_cons, if_pos rfl, splitNl_cons, if_pos rfl, ih]
      rfl
    · rw [List.cons_append, splitNl_cons, if_neg h, splitNl_cons, if_neg h, ih]
      obtain ⟨r0, rs, hr⟩ := splitNl_eq_cons cs
      rw [hr]
      simp

lemma splitNl_append_cons_nl : ∀ (a b : List Char),
    splitNl (a ++ '\n' :: b) = splitNl a ++ splitNl b := by
  intro a
  induction a with
  | nil =>
    intro b
    rw [List.nil_append, splitNl_cons, if_pos rfl]
    rfl
  | cons c cs ih =>
    intro b
    by_cases h : c = '\n'
    · subst h
      rw [List.cons_append, splitNl_cons, if_pos rfl, splitNl_cons, if_pos rfl, ih]
      rfl
    · rw [List.cons_append, splitNl_cons, if_neg h, splitNl_cons, if_neg h, ih]
      obtain ⟨r0, rs, hr⟩ := splitNl_eq_cons cs
      rw [hr]
      simp

lemma splitNl_no_nl (l : List Char) (h : '\n' ∉ l) : splitNl l = [l] := by
  induction l with
  | nil => rfl
  | cons c cs ih =>
    have hc : ¬ c = '\n' := fun hh => h (hh ▸ List.mem_cons_self c cs)
    rw [splitNl_cons, if_neg hc, ih (fun hm => h (List.mem_cons_of_mem c hm))]
    rfl

lemma mem_splitNl_no_nl : ∀ (t l : List Char), l ∈ splitNl t → '\n' ∉ l := by
  intro t
  induction t with
  | nil =>
    intro l hl
    simp only [splitNl, List.mem_singleton] at hl
    subst hl
    simp
  | cons c cs ih =>
    intro l hl
    rw [splitNl_cons] at hl
    by_cases h : c = '\n'
    · rw [if_pos h] at hl
      rcases List.mem_cons.mp hl with rfl | hm
      · simp
      · exact ih l hm
    · rw [if_neg h] at hl
      obtain ⟨r0, rs, hr⟩ := splitNl_eq_cons cs
      rw [hr] at hl
      simp only [List.headI_cons, List.tail_cons] at hl
      rcases List.mem_cons.mp hl with rfl | hm
      · intro hmem
        rcases List.mem_cons.mp hmem with h1 | h1
        · exact h h1.symm
        · exact ih r0 (hr ▸ List.mem_cons_self r0 rs) h1
      · exact ih l (hr ▸ List.mem_cons_of_mem r0 hm)

lemma joinNl_cons_cons (a b : List Char) (rest : List (List Char)) :
    joinNl (a :: b :: rest) = a ++ '\n' :: joinNl (b :: rest) := rfl

/-- Splitting the joined new-task block (with its final newline) recovers the
tasks, plus the empty trailing line. -/
lemma splitNl_joinNl : ∀ (nts : List (List Char)), nts ≠ [] →
    (∀ l ∈ nts, '\n' ∉ l) → splitNl (joinNl nts ++ ['\n']) = nts ++ [[]] := by
  intro nts
  induction nts with
  | nil => intro h _; exact absurd rfl h
  | cons s rest ih =>
    intro _ hnl
    cases rest with
    | nil =>
      rw [show joinNl [s] = s from rfl, splitNl_append_nl,
        splitNl_no_nl s (hnl s (List.mem_cons_self s []))]
    | cons b r =>
      rw [joinNl_cons_cons, List.append_assoc, List.cons_append, splitNl_append_cons_nl,
        splitNl_no_nl s (hnl s (List.mem_cons_self s _)),
        ih (by simp) (fun l hl => hnl l (List.mem_cons_of_mem s hl))]
      rfl

/-- Every member of the joined new-task block is followed by a newline. -/
lemma joinNl_mem_decomp : ∀ (nts : List (List Char)) (s : List Char), s ∈ nts →
    ∃ A B, joinNl nts ++ ['\n'] = A ++ (s ++ '\n' :: B) := by
  intro nts
  induction nts with
  | nil => intro s hs; exact absurd hs (List.not_mem_nil s)
  | cons s0 rest ih =>
    intro s hs
    rcases List.mem_cons.mp hs with rfl | hm
    · cases rest with
      | nil => exact ⟨[], [], rfl⟩
      | cons b r =>
        refine ⟨[], joinNl (b :: r) ++ ['\n'], ?_⟩
        rw [joinNl_cons_cons]
        simp
    · cases rest with
      | nil => exact absurd hm (List.not_mem_nil s)
      | cons b r =>
        obtain ⟨A, B, hAB⟩ := ih s hm
        refine ⟨s0 ++ '\n' :: A, B, ?_⟩
        rw [joinNl_cons_cons]
        simp only [List.append_assoc, List.cons_append]
        rw [hAB]

lemma scanSearch_cons (k0 : Char) (ks : List Char) (c : Char) (cs : List Char) :
    scanSearch k0 ks (c :: cs) =
      if c = k0 ∧ ks.isPrefixOf cs then
        (if (cs.drop ks.length).takeWhile (fun d => !pyIsSpace d) = []
         then scanSearch k0 ks cs
         else some ((cs.drop ks.length).takeWhile (fun d => !pyIsSpace d)))
      else scanSearch k0 ks cs := rfl

/-! ## Fingerprint and date-format character facts -/

lemma sha1Hex_decomp (m : List Nat) : ∃ a b c d e : Nat,
    sha1Hex m = wordHex a ++ wordHex b ++ wordHex c ++ wordHex d ++ wordHex e := by
  rcases hst : (chunk64F ((sha1Pad m).length / 64 + 1) (sha1Pad m)).foldl processBlock
      (1732584193, 4023233417, 2562383102, 271733878, 3285377520) with ⟨a, b, c, d, e⟩
  refine ⟨a, b, c, d, e, ?_⟩
  show (let padded := sha1Pad m;
    let st := List.foldl processBlock (1732584193, 4023233417, 2562383102, 271733878, 3285377520)
        (chunk64F (padded.length / 64 + 1) padded);
    match st with
    | (h0, h1, h2, h3, h4) =>
      wordHex h0 ++ wordHex h1 ++ wordHex h2 ++ wordHex h3 ++ wordHex h4) = _
  simp only []
  rw [hst]

lemma hexChar_isHex : ∀ n, n < 16 → isHexChar (hexChar n) = true := by decide

lemma wordHex_isHex (w : Nat) : ∀ c ∈ wordHex w, isHexChar c = true := by
  intro c hc
  simp only [wordHex, List.mem_cons, List.not_mem_nil, or_false] at hc
  rcases hc with rfl | rfl | rfl | rfl | rfl | rfl | rfl | rfl <;>
    exact hexChar_isHex _ (Nat.mod_lt _ (by norm_num))

lemma taskHash_isHex (line : List Char) : ∀ c ∈ taskHash line, isHexChar c = true := by
  intro c hc
  obtain ⟨a, b, d, e, f, hdec⟩ := sha1Hex_decomp (line.flatMap utf8Bytes)
  unfold taskHash at hc
  rw [hdec] at hc
  have hmem := List.mem_of_mem_take hc
  simp only [List.mem_append] at hmem
  rcases hmem with ((((h1 | h1) | h1) | h1) | h1) <;> exact wordHex_isHex _ c h1

lemma space_not_hex : ∀ c, pyIsSpace c = true → isHexChar c = false := by
  intro c hsp
  simp only [pyIsSpace, Bool.or_eq_true, decide_eq_true_eq] at hsp
  rcases hsp with ((((rfl | rfl) | rfl) | rfl) | rfl) | rfl <;> decide

lemma isHex_nonspace {c : Char} (h : isHexChar c = true) : pyIsSpace c = false := by
  by_cases hs : pyIsSpace c = true
  · rw [space_not_hex c hs] at h
    exact absurd h (by simp)
  · simpa using hs

lemma wordHex_length (w : Nat) : (wordHex w).length = 8 := rfl

lemma sha1Hex_length (m : List Nat) : (sha1Hex m).length = 40 := by
  obtain ⟨a, b, c, d, e, hdec⟩ := sha1Hex_decomp m
  rw [hdec]
  simp [wordHex_length]

lemma taskHash_length (line : List Char) : (taskHash line).length = 8 := by
  unfold taskHash
  rw [List.length_take, sha1Hex_length]
  rfl

lemma taskHash_ne_nil (line : List Char) : taskHash line ≠ [] := by
  intro h
  have := taskHash_length line
  rw [h] at this
  exact absurd this (by simp)

lemma taskHash_nonspace (line : List Char) : ∀ c ∈ taskHash line, pyIsSpace c = false :=
  fun c hc => isHex_nonspace (taskHash_isHex line c hc)

lemma digitChar_isDigit : ∀ n, n < 10 → (digitChar n).isDigit = true := by decide

lemma natToRevDigits_digits : ∀ f n, ∀ c ∈ natToRevDigits f n, c.isDigit = true := by
  intro f
  induction f with
  | zero => intro n c hc; exact absurd hc (List.not_mem_nil c)
  | succ f ih =>
    intro n c hc
    by_cases hn : n = 0
    · rw [natToRevDigits, if_pos hn] at hc
      exact absurd hc (List.not_mem_nil c)
    · rw [natToRevDigits, if_neg hn] at hc
      rcases List.mem_cons.mp hc with rfl | hm
      · exact digitChar_isDigit _ (Nat.mod_lt _ (by norm_num))
      · exact ih _ c hm

lemma natDigits_digits (n : Nat) : ∀ c ∈ natDigits n, c.isDigit = true := by
  intro c hc
  rw [natDigits, List.mem_reverse] at hc
  exact natToRevDigits_digits _ _ c hc

lemma padZeros_digits {w : Nat} {s : List Char} (hs : ∀ c ∈ s, c.isDigit = true) :
    ∀ c ∈ padZeros w s, c.isDigit = true := by
  intro c hc
  rcases List.mem_append.mp hc with h1 | h1
  · rw [List.eq_of_mem_replicate h1]
    decide
  · exact hs c h1

lemma formatDate_chars (D : PyDate) : ∀ c ∈ formatDate D, c.isDigit = true ∨ c = '-' := by
  intro c hc
  unfold formatDate at hc
  rcases List.mem_append.mp hc with h1 | h1
  · exact Or.inl (padZeros_digits (natDigits_digits _) c h1)
  · rcases List.mem_cons.mp h1 with rfl | h2
    · exact Or.inr rfl
    · rcases List.mem_append.mp h2 with h3 | h3
      · exact Or.inl (padZeros_digits (natDigits_digits _) c h3)
      · rcases List.mem_cons.mp h3 with rfl | h4
        · exact Or.inr rfl
        · exact Or.inl (padZeros_digits (natDigits_digits _) c h4)

lemma digit_nonspace : ∀ c : Char, c.isDigit = true → pyIsSpace c = false := by
  intro c h
  by_cases hs : pyIsSpace c = true
  · exfalso
    simp only [pyIsSpace, Bool.or_eq_true, decide_eq_true_eq] at hs
    rcases hs with ((((rfl | rfl) | rfl) | rfl) | rfl) | rfl <;> simp at h
  · simpa using hs

lemma formatDate_nonspace (D : PyDate) : ∀ c ∈ formatDate D, pyIsSpace c = false := by
  intro c hc
  rcases formatDate_chars D c hc with h | rfl
  · exact digit_nonspace c h
  · decide

lemma formatDate_ne_nil (D : PyDate) : formatDate D ≠ [] := by
  unfold formatDate
  intro h
  exact absurd (congrArg List.length h) (by simp)

/-- Searching for a key whose second character does not occur in the text
finds nothing. -/
lemma scanSearch_none_not_mem {k0 k1 : Char} {ks' : List Char} :
    ∀ l : List Char, k1 ∉ l → scanSearch k0 (k1 :: ks') l = none := by
  intro l
  induction l with
  | nil => intro _; rfl
  | cons c cs ih =>
    intro h
    have hcond : ¬ (c = k0 ∧ (k1 :: ks').isPrefixOf cs) := by
      rintro ⟨_, hpre⟩
      exact h (List.mem_cons_of_mem c
        ((List.isPrefixOf_iff_prefix.mp hpre).subset (List.mem_cons_self k1 ks')))
    simp only [scanSearch, if_neg hcond]
    exact ih (fun hm => h (List.mem_cons_of_mem c hm))

lemma not_mem_of_all_hex {x : Char} (hx : isHexChar x = false) {l : List Char}
    (h : ∀ c ∈ l, isHexChar c = true) : x ∉ l := by
  intro hm
  rw [h x hm] at hx
  exact Bool.noConfusion hx

lemma takeWhile_all_nonsp {l : List Char} (h : ∀ c ∈ l, pyIsSpace c = false) :
    l.takeWhile (fun d => !pyIsSpace d) = l := by
  induction l with
  | nil => rfl
  | cons c cs ih =>
    rw [List.takeWhile_cons_of_pos (by simp [h c (List.mem_cons_self c cs)])]
    rw [ih (fun d hd => h d (List.mem_cons_of_mem c hd))]

/-! ## Successor line structure lemmas -/

lemma scanRemove_sublist {k0 : Char} {ks : List Char} :
    ∀ (n : Nat) (x : List Char), x.length ≤ n → List.Sublist (scanRemove k0 ks x) x := by
  intro n
  induction n with
  | zero =>
    intro x hx
    have : x = [] := List.length_eq_zero.mp (Nat.le_zero.mp hx)
    subst this
    exact List.Sublist.refl []
  | succ n ih =>
    intro x hx
    cases x with
    | nil => exact List.Sublist.refl []
    | cons c cs =>
      have hcs : cs.length ≤ n := by simp at hx; omega
      rw [scanRemove_cons]
      by_cases hcond : c = k0 ∧ ks.isPrefixOf cs
      · by_cases hv : ((cs.drop ks.length).takeWhile (fun d => !pyIsSpace d)) = []
        · rw [if_pos hcond, if_pos hv]
          exact List.Sublist.cons₂ c (ih cs hcs)
        · rw [if_pos hcond, if_neg hv, drop_takeWhile_length]
          have hsub : List.Sublist ((cs.drop ks.length).dropWhile (fun d => !pyIsSpace d)) cs :=
            ((List.dropWhile_suffix _).sublist).trans (List.drop_suffix _ _).sublist
          exact ((ih _ (le_trans hsub.length_le hcs)).trans hsub).cons c
      · rw [if_neg hcond]
        exact List.Sublist.cons₂ c (ih cs hcs)

lemma scanRemove_sublist' (k0 : Char) (ks : List Char) (x : List Char) :
    List.Sublist (scanRemove k0 ks x) x :=
  scanRemove_sublist x.length x (le_refl _)

lemma pyStrip_sublist (l : List Char) : List.Sublist (pyStrip l) l := by
  unfold pyStrip
  have h1 : List.Sublist ((l.dropWhile pyIsSpace).reverse.dropWhile pyIsSpace)
      (l.dropWhile pyIsSpace).reverse := (List.dropWhile_suffix _).sublist
  have h2 := h1.reverse
  rw [List.reverse_reverse] at h2
  exact h2.trans (List.dropWhile_suffix _).sublist

lemma nl_not_mem_nonspace {l : List Char} (h : ∀ c ∈ l, pyIsSpace c = false) :
    '\n' ∉ l := by
  intro hm
  have h2 := h '\n' hm
  rw [nl_space] at h2
  exact Bool.noConfusion h2

lemma l2_no_nl {line : List Char} (hline : '\n' ∉ line) :
    '\n' ∉ pyStrip (removeDue (pyStrip (removeDone line))) := by
  intro hm
  apply hline
  have s1 := (pyStrip_sublist _).subset hm
  have s2 := (scanRemove_sublist' _ _ _).subset s1
  have s3 := (pyStrip_sublist _).subset s2
  exact (scanRemove_sublist' _ _ _).subset s3

lemma _add_recurrence_ok_some {base : Option (List Char)} {rec nd : List Char}
    (h : _add_recurrence base rec = .ok (some nd)) : ∃ D : PyDate, nd = formatDate D := by
  rcases base with _ | ds
  · simp [_add_recurrence] at h
  · simp only [_add_recurrence] at h
    by_cases hds : ds = []
    · simp [hds] at h
    · rw [if_neg hds] at h
      rcases hpd : parseDate ds with _ | date
      · rw [hpd] at h
        exact absurd h (by simp)
      · simp only [hpd] at h
        rcases hpa : parseAmount (dropPlus rec).dropLast with _ | amount
        · rw [hpa] at h
          exact absurd h (by simp)
        · simp only [hpa] at h
          rcases hgl : (dropPlus rec).getLast? with _ | unit
          · rw [hgl] at h
            exact absurd h (by simp)
          · simp only [hgl] at h
            by_cases hy : (addRecDate date amount unit).year ≤ 9999
            · rw [if_pos hy] at h
              refine ⟨addRecDate date amount unit, ?_⟩
              have h2 := Except.ok.inj h
              exact (Option.some.inj h2).symm
            · rw [if_neg hy] at h
              exact absurd h (by simp)

lemma o_not_hex : isHexChar 'o' = false := by decide

lemma u_not_hex : isHexChar 'u' = false := by decide

/-- No `done:` field occurs in the `_prev:` marker block. -/
lemma searchDone_marker_none {hsh : List Char} (hhex : ∀ c ∈ hsh, isHexChar c = true) :
    searchDone ('_' :: (prevTail ++ hsh)) = none := by
  unfold searchDone doneTail
  apply scanSearch_none_not_mem
  intro hm
  rcases List.mem_cons.mp hm with h1 | h1
  · exact absurd h1 (by decide)
  · rcases List.mem_append.mp h1 with h2 | h2
    · revert h2
      decide
    · exact not_mem_of_all_hex o_not_hex hhex h2

/-- No `due:` field occurs in the `_prev:` marker block. -/
lemma searchDue_marker_none {hsh : List Char} (hhex : ∀ c ∈ hsh, isHexChar c = true) :
    searchDue ('_' :: (prevTail ++ hsh)) = none := by
  unfold searchDue dueTail
  apply scanSearch_none_not_mem
  intro hm
  rcases List.mem_cons.mp hm with h1 | h1
  · exact absurd h1 (by decide)
  · rcases List.mem_append.mp h1 with h2 | h2
    · revert h2
      decide
    · exact not_mem_of_all_hex u_not_hex hhex h2

/-- No `done:` field occurs in an appended ` due:<date>` block. -/
lemma searchDone_duepart_none (D : PyDate) :
    searchDone ('d' :: (dueTail ++ formatDate D)) = none := by
  unfold searchDone doneTail
  apply scanSearch_none_not_mem
  intro hm
  rcases List.mem_cons.mp hm with h1 | h1
  · exact absurd h1 (by decide)
  · rcases List.mem_append.mp h1 with h2 | h2
    · revert h2
      decide
    · rcases formatDate_chars D 'o' h2 with h3 | h3
      · exact absurd h3 (by decide)
      · exact absurd h3 (by decide)

/-- The appended ` due:<date>` block is found by the `due:` search with
exactly the date as its value. -/
lemma searchDue_duepart (D : PyDate) :
    searchDue ('d' :: (dueTail ++ formatDate D)) = some (formatDate D) := by
  unfold searchDue
  have hcond : ('d' : Char) = 'd' ∧ dueTail.isPrefixOf (dueTail ++ formatDate D) :=
    ⟨rfl, List.isPrefixOf_iff_prefix.mpr (List.prefix_append _ _)⟩
  rw [scanSearch_cons, if_pos hcond, List.drop_left,
    takeWhile_all_nonsp (formatDate_nonspace D), if_neg (formatDate_ne_nil D)]

/-- The generated successor line carries no `done:` field. -/
lemma searchDone_buildNewLine (line hsh : List Char) (nd : Option (List Char))
    (hhex : ∀ c ∈ hsh, isHexChar c = true)
    (hnd : nd = none ∨ ∃ D : PyDate, nd = some (formatDate D)) :
    searchDone (buildNewLine line hsh nd) = none := by
  have hl2 : searchDone (pyStrip (removeDue (pyStrip (removeDone line)))) = none := by
    unfold searchDone
    rw [scanSearch_pyStrip d_nonspace doneTail_nonspace]
    apply scanSearch_none_scanRemove doneTail_nonspace d_nonspace _ _ (le_refl _)
    rw [scanSearch_pyStrip d_nonspace doneTail_nonspace]
    exact scanSearch_scanRemove_self d_nonspace doneTail_nonspace (by decide) _ _ (le_refl _)
  rcases hnd with rfl | ⟨D, rfl⟩
  · show searchDone (pyStrip (removeDue (pyStrip (removeDone line))) ++
      ' ' :: ('_' :: prevTail ++ hsh)) = none
    unfold searchDone
    rw [scanSearch_append_space d_nonspace doneTail_nonspace sp_space _ _ (le_refl _)]
    rw [show scanSearch 'd' doneTail (pyStrip (removeDue (pyStrip (removeDone line)))) =
      none from hl2]
    rw [show scanSearch 'd' doneTail ('_' :: prevTail ++ hsh) = none from
      searchDone_marker_none hhex]
    rfl
  · show searchDone ((pyStrip (removeDue (pyStrip (removeDone line))) ++
      ' ' :: ('_' :: prevTail ++ hsh)) ++ ' ' :: ('d' :: dueTail ++ formatDate D)) = none
    unfold searchDone
    rw [scanSearch_append_space d_nonspace doneTail_nonspace sp_space _ _ (le_refl _)]
    rw [show scanSearch 'd' doneTail (pyStrip (removeDue (pyStrip (removeDone line))) ++
        ' ' :: ('_' :: prevTail ++ hsh)) = none from by
      rw [scanSearch_append_space d_nonspace doneTail_nonspace sp_space _ _ (le_refl _)]
      rw [show scanSearch 'd' doneTail (pyStrip (removeDue (pyStrip (removeDone line)))) =
        none from hl2]
      rw [show scanSearch 'd' doneTail ('_' :: prevTail ++ hsh) = none from
        searchDone_marker_none hhex]
      rfl]
    rw [show scanSearch 'd' doneTail ('d' :: dueTail ++ formatDate D) = none from
      searchDone_duepart_none D]
    rfl

/-- The `due:` field of the generated successor line is exactly the computed
due date (or absent). -/
lemma searchDue_buildNewLine (line hsh : List Char) (nd : Option (List Char))
    (hhex : ∀ c ∈ hsh, isHexChar c = true)
    (hnd : nd = none ∨ ∃ D : PyDate, nd = some (formatDate D)) :
    searchDue (buildNewLine line hsh nd) = nd := by
  have hl2 : searchDue (pyStrip (removeDue (pyStrip (removeDone line)))) = none := by
    unfold searchDue
    rw [scanSearch_pyStrip d_nonspace dueTail_nonspace]
    exact scanSearch_scanRemove_self d_nonspace dueTail_nonspace (by decide) _ _ (le_refl _)
  rcases hnd with rfl | ⟨D, rfl⟩
  · show searchDue (pyStrip (removeDue (pyStrip (removeDone line))) ++
      ' ' :: ('_' :: prevTail ++ hsh)) = none
    unfold searchDue
    rw [scanSearch_append_space d_nonspace dueTail_nonspace sp_space _ _ (le_refl _)]
    rw [show scanSearch 'd' dueTail (pyStrip (removeDue (pyStrip (removeDone line)))) =
      none from hl2]
    rw [show scanSearch 'd' dueTail ('_' :: prevTail ++ hsh) = none from
      searchDue_marker_none hhex]
    rfl
  · show searchDue ((pyStrip (removeDue (pyStrip (removeDone line))) ++
      ' ' :: ('_' :: prevTail ++ hsh)) ++ ' ' :: ('d' :: dueTail ++ formatDate D)) =
      some (formatDate D)
    unfold searchDue
    rw [scanSearch_append_space d_nonspace dueTail_nonspace sp_space _ _ (le_refl _)]
    rw [show scanSearch 'd' dueTail (pyStrip (removeDue (pyStrip (removeDone line))) ++
        ' ' :: ('_' :: prevTail ++ hsh)) = none from by
      rw [scanSearch_append_space d_nonspace dueTail_nonspace sp_space _ _ (le_refl _)]
      rw [show scanSearch 'd' dueTail (pyStrip (removeDue (pyStrip (removeDone line)))) =
        none from hl2]
      rw [show scanSearch 'd' dueTail ('_' :: prevTail ++ hsh) = none from
        searchDue_marker_none hhex]
      rfl]
    rw [show scanSearch 'd' dueTail ('d' :: dueTail ++ formatDate D) =
      some (formatDate D) from searchDue_duepart D]
    rfl

/-- The generated successor line contains no newline. -/
lemma buildNewLine_no_nl {line : List Char} (hline : '\n' ∉ line) (hsh : List Char)
    (hhsh : ∀ c ∈ hsh, pyIsSpace c = false) {nd : Option (List Char)}
    (hnd : nd = none ∨ ∃ D : PyDate, nd = some (formatDate D)) :
    '\n' ∉ buildNewLine line hsh nd := by
  have hmark : '\n' ∉ (' ' :: ('_' :: prevTail ++ hsh)) := by
    intro hm
    rcases List.mem_cons.mp hm with h1 | h1
    · exact absurd h1 (by decide)
    · rcases List.mem_cons.mp h1 with h2 | h2
      · exact absurd h2 (by decide)
      · rcases List.mem_append.mp h2 with h3 | h3
        · revert h3
          decide
        · exact nl_not_mem_nonspace hhsh h3
  rcases hnd with rfl | ⟨D, rfl⟩
  · show '\n' ∉ pyStrip (removeDue (pyStrip (removeDone line))) ++
      ' ' :: ('_' :: prevTail ++ hsh)
    intro hm
    rcases List.mem_append.mp hm with h1 | h1
    · exact l2_no_nl hline h1
    · exact hmark h1
  · show '\n' ∉ (pyStrip (removeDue (pyStrip (removeDone line))) ++
      ' ' :: ('_' :: prevTail ++ hsh)) ++ ' ' :: ('d' :: dueTail ++ formatDate D)
    intro hm
    rcases List.mem_append.mp hm with h1 | h1
    · rcases List.mem_append.mp h1 with h2 | h2
      · exact l2_no_nl hline h2
      · exact hmark h2
    · rcases List.mem_cons.mp h1 with h2 | h2
      · exact absurd h2 (by decide)
      · rcases List.mem_cons.mp h2 with h3 | h3
        · exact absurd h3 (by decide)
        · rcases List.mem_append.mp h3 with h4 | h4
          · revert h4
            decide
          · exact nl_not_mem_nonspace (formatDate_nonspace D) h4

/-! ## prevVals lemmas -/

lemma prevVals_append_space {w : Char} (hw : pyIsSpace w = true) (a b : List Char) :
    prevVals (a ++ w :: b) = prevVals a ++ prevVals b :=
  scanVals_append_space us_nonspace prevTail_nonspace hw a.length a (le_refl _) b

lemma mem_prevVals_marker (A hsh rest : List Char)
    (hne : hsh ≠ []) (hhs : ∀ c ∈ hsh, pyIsSpace c = false) (hrest : spaceHead rest) :
    hsh ∈ prevVals (A ++ ' ' :: ('_' :: (prevTail ++ (hsh ++ rest)))) := by
  rw [prevVals_append_space sp_space]
  apply List.mem_append_right
  rw [show prevVals ('_' :: (prevTail ++ (hsh ++ rest))) =
    scanVals '_' prevTail ('_' :: (prevTail ++ (hsh ++ rest))) from rfl]
  rw [scanVals_cons]
  have hcond : ('_' : Char) = '_' ∧ prevTail.isPrefixOf (prevTail ++ (hsh ++ rest)) :=
    ⟨rfl, List.isPrefixOf_iff_prefix.mpr (List.prefix_append _ _)⟩
  rw [if_pos hcond, List.drop_left]
  have hv : (hsh ++ rest).takeWhile (fun d => !pyIsSpace d) = hsh := by
    rcases hrest with rfl | ⟨w, r', rfl, hw⟩
    · rw [List.append_nil]
      exact takeWhile_all_nonsp hhs
    · rw [takeWhile_append_space hw]
      exact takeWhile_all_nonsp hhs
  rw [hv, if_neg hne]
  exact List.mem_cons_self _ _

/-- The fingerprint marker of an appended successor line is collected by the
`_prev:` scan of the whole output text. -/
lemma hash_mem_prevVals_of_build (T A B0 line hsh : List Char) (nd : Option (List Char))
    (hne : hsh ≠ []) (hhs : ∀ c ∈ hsh, pyIsSpace c = false)
    (hnd : nd = none ∨ ∃ D : PyDate, nd = some (formatDate D)) :
    hsh ∈ prevVals (T ++ (A ++ (buildNewLine line hsh nd ++ '\n' :: B0))) := by
  rcases hnd with rfl | ⟨D, rfl⟩
  · have heq : T ++ (A ++ (buildNewLine line hsh none ++ '\n' :: B0)) =
        (T ++ (A ++ pyStrip (removeDue (pyStrip (removeDone line))))) ++
          ' ' :: ('_' :: (prevTail ++ (hsh ++ '\n' :: B0))) := by
      show T ++ (A ++ ((pyStrip (removeDue (pyStrip (removeDone line))) ++
        ' ' :: ('_' :: prevTail ++ hsh)) ++ '\n' :: B0)) = _
      simp [List.append_assoc]
    rw [heq]
    exact mem_prevVals_marker _ hsh _ hne hhs (Or.inr ⟨'\n', B0, rfl, nl_space⟩)
  · have heq : T ++ (A ++ (buildNewLine line hsh (some (formatDate D)) ++ '\n' :: B0)) =
        (T ++ (A ++ pyStrip (removeDue (pyStrip (removeDone line))))) ++
          ' ' :: ('_' :: (prevTail ++ (hsh ++
            ' ' :: (('d' :: dueTail ++ formatDate D) ++ '\n' :: B0)))) := by
      show T ++ (A ++ (((pyStrip (removeDue (pyStrip (removeDone line))) ++
        ' ' :: ('_' :: prevTail ++ hsh)) ++ ' ' :: ('d' :: dueTail ++ formatDate D)) ++
          '\n' :: B0)) = _
      simp [List.append_assoc]
    rw [heq]
    exact mem_prevVals_marker _ hsh _ hne hhs
      (Or.inr ⟨' ', ('d' :: dueTail ++ formatDate D) ++ '\n' :: B0, rfl, sp_space⟩)

/-! ## Processing loop lemmas -/

lemma specEmit_none_no_rec {prev : List (List Char)} {b : List Char}
    (hr : searchRec b = none) : specEmit prev b = none := by
  simp only [specEmit, hr]

/-- On success, the generated tasks are exactly the per-line contributions in
source order. -/
lemma newTasksFor_ok_filterMap (prev : List (List Char)) :
    ∀ (bs nts : List (List Char)),
      newTasksFor prev bs = .ok nts → nts = bs.filterMap (specEmit prev) := by
  intro bs
  induction bs with
  | nil =>
    intro nts h
    simp only [newTasksFor] at h
    injection h with h2
    rw [← h2]
    rfl
  | cons b bs ih =>
    intro nts h
    rcases hr : searchRec b with _ | rec
    · simp only [newTasksFor, hr] at h
      rw [List.filterMap_cons, specEmit_none_no_rec hr]
      exact ih nts h
    · rcases hd : searchDone b with _ | dn
      · simp only [newTasksFor, hr, hd] at h
        exact absurd h (by simp)
      · by_cases hm : taskHash b ∈ prev
        · simp only [newTasksFor, hr, hd, if_pos hm] at h
          rw [List.filterMap_cons, show specEmit prev b = none from by
            simp only [specEmit, hr, hd, if_pos hm]]
          exact ih nts h
        · rcases ha : _add_recurrence (baseDateOf b rec dn) rec with e | ndv
          · simp only [newTasksFor, hr, hd, if_neg hm, ha] at h
            exact absurd h (by simp)
          · simp only [newTasksFor, hr, hd, if_neg hm, ha] at h
            cases hrest : newTasksFor prev bs with
            | error e =>
              rw [hrest] at h
              exact absurd h (by simp)
            | ok tasks =>
              rw [hrest] at h
              injection h with h2
              rw [List.filterMap_cons, show specEmit prev b =
                some (buildNewLine b (taskHash b) ndv) from by
                simp only [specEmit, hr, hd, if_neg hm, ha]]
              rw [← h2, ih tasks hrest]

/-- If every body is skipped (no rec, or done present and fingerprint already
recorded), the run produces no new tasks and no error. -/
lemma newTasksFor_all_skip (prev : List (List Char)) :
    ∀ bs : List (List Char),
      (∀ b ∈ bs, searchRec b = none ∨
        ((∃ v, searchDone b = some v) ∧ taskHash b ∈ prev)) →
      newTasksFor prev bs = .ok [] := by
  intro bs
  induction bs with
  | nil => intro _; rfl
  | cons b bs ih =>
    intro h
    have hrest := ih (fun x hx => h x (List.mem_cons_of_mem b hx))
    rcases h b (List.mem_cons_self b bs) with h1 | ⟨⟨v, hv⟩, hm⟩
    · simp only [newTasksFor, h1]
      exact hrest
    · rcases hr : searchRec b with _ | rec
      · simp only [newTasksFor, hr]
        exact hrest
      · simp only [newTasksFor, hr, hv, if_pos hm]
        exact hrest

/-- Invariant extracted from a successful run: every body either has no rec
interval, or has a done date and is either already fingerprinted or
contributes its successor line to the output. -/
lemma newTasksFor_ok_inv (prev : List (List Char)) :
    ∀ (bs nts : List (List Char)), newTasksFor prev bs = .ok nts →
      ∀ b ∈ bs, searchRec b = none ∨
        ∃ rec dn, searchRec b = some rec ∧ searchDone b = some dn ∧
          (taskHash b ∈ prev ∨
            ∃ nd, _add_recurrence (baseDateOf b rec dn) rec = .ok nd ∧
              buildNewLine b (taskHash b) nd ∈ nts) := by
  intro bs
  induction bs with
  | nil => intro nts _ b hb; exact absurd hb (List.not_mem_nil b)
  | cons b0 bs ih =>
    intro nts h b hb
    rcases hr : searchRec b0 with _ | rec
    · simp only [newTasksFor, hr] at h
      rcases List.mem_cons.mp hb with rfl | hm
      · exact Or.inl hr
      · exact ih nts h b hm
    · rcases hd : searchDone b0 with _ | dn
      · simp only [newTasksFor, hr, hd] at h
        exact absurd h (by simp)
      · by_cases hmem : taskHash b0 ∈ prev
        · simp only [newTasksFor, hr, hd, if_pos hmem] at h
          rcases List.mem_cons.mp hb with rfl | hm
          · exact Or.inr ⟨rec, dn, hr, hd, Or.inl hmem⟩
          · exact ih nts h b hm
        · rcases ha : _add_recurrence (baseDateOf b0 rec dn) rec with e | ndv
          · simp only [newTasksFor, hr, hd, if_neg hmem, ha] at h
            exact absurd h (by simp)
          · simp only [newTasksFor, hr, hd, if_neg hmem, ha] at h
            cases hrest : newTasksFor prev bs with
            | error e =>
              rw [hrest] at h
              exact absurd h (by simp)
            | ok tasks =>
              rw [hrest] at h
              injection h with h2
              rcases List.mem_cons.mp hb with rfl | hm
              · refine Or.inr ⟨rec, dn, hr, hd, Or.inr ⟨ndv, ha, ?_⟩⟩
                rw [← h2]
                exact List.mem_cons_self _ _
              · rcases ih tasks hrest b hm with h3 | ⟨r2, d2, hr2, hd2, h3⟩
                · exact Or.inl h3
                · refine Or.inr ⟨r2, d2, hr2, hd2, ?_⟩
                  rcases h3 with h4 | ⟨nd2, ha2, hmem2⟩
                  · exact Or.inl h4
                  · refine Or.inr ⟨nd2, ha2, ?_⟩
                    rw [← h2]
                    exact List.mem_cons_of_mem _ hmem2

/-- The run only consults the fingerprint collection through membership. -/
lemma newTasksFor_congr_prev (p1 p2 : List (List Char))
    (h : ∀ x : List Char, x ∈ p1 ↔ x ∈ p2) :
    ∀ bs : List (List Char), newTasksFor p1 bs = newTasksFor p2 bs := by
  intro bs
  induction bs with
  | nil => rfl
  | cons b bs ih =>
    rcases hr : searchRec b with _ | rec
    · simp only [newTasksFor, hr]
      exact ih
    · rcases hd : searchDone b with _ | dn
      · simp only [newTasksFor, hr, hd]
      · by_cases hm : taskHash b ∈ p1
        · simp only [newTasksFor, hr, hd, if_pos hm, if_pos ((h _).mp hm)]
          exact ih
        · simp only [newTasksFor, hr, hd, if_neg hm, if_neg (fun hx => hm ((h _).mpr hx))]
          rw [ih]

/-- `_add_recurrence` raises only `datetime` errors, never `TodotxtError`. -/
lemma _add_recurrence_ne_todotxt (base : Option (List Char)) (rec : List Char) :
    ∀ m, _add_recurrence base rec ≠ .error (.todotxt m) := by
  intro m h
  rcases base with _ | ds
  · simp [_add_recurrence] at h
  · simp only [_add_recurrence] at h
    by_cases hds : ds = []
    · rw [if_pos hds] at h
      exact absurd h (by simp)
    · rw [if_neg hds] at h
      rcases hpd : parseDate ds with _ | date
      · simp only [hpd] at h
        exact absurd h (by simp)
      · simp only [hpd] at h
        rcases hpa : parseAmount (dropPlus rec).dropLast with _ | amount
        · simp only [hpa] at h
          exact absurd h (by simp)
        · simp only [hpa] at h
          rcases hgl : (dropPlus rec).getLast? with _ | unit
          · simp only [hgl] at h
            exact absurd h (by simp)
          · simp only [hgl] at h
            by_cases hy : (addRecDate date amount unit).year ≤ 9999
            · rw [if_pos hy] at h
              exact absurd h (by simp)
            · rw [if_neg hy] at h
              exact absurd h (by simp)

/-- A raised `TodotxtError` comes from a completed body with a rec interval
and no done date. -/
lemma newTasksFor_todo_err (prev : List (List Char)) :
    ∀ (bs : List (List Char)) (m : List Char),
      newTasksFor prev bs = .error (.todotxt m) →
      ∃ b ∈ bs, (∃ r, searchRec b = some r) ∧ searchDone b = none := by
  intro bs
  induction bs with
  | nil =>
    intro m h
    exact absurd h (by simp [newTasksFor])
  | cons b bs ih =>
    intro m h
    rcases hr : searchRec b with _ | rec
    · simp only [newTasksFor, hr] at h
      obtain ⟨b2, hb2, hp⟩ := ih m h
      exact ⟨b2, List.mem_cons_of_mem b hb2, hp⟩
    · rcases hd : searchDone b with _ | dn
      · exact ⟨b, List.mem_cons_self b bs, ⟨rec, hr⟩, hd⟩
      · by_cases hm : taskHash b ∈ prev
        · simp only [newTasksFor, hr, hd, if_pos hm] at h
          obtain ⟨b2, hb2, hp⟩ := ih m h
          exact ⟨b2, List.mem_cons_of_mem b hb2, hp⟩
        · rcases ha : _add_recurrence (baseDateOf b rec dn) rec with e | ndv
          · simp only [newTasksFor, hr, hd, if_neg hm, ha] at h
            exfalso
            injection h with h2
            exact _add_recurrence_ne_todotxt (baseDateOf b rec dn) rec m (h2 ▸ ha)
          · simp only [newTasksFor, hr, hd, if_neg hm, ha] at h
            cases hrest : newTasksFor prev bs with
            | error e =>
              rw [hrest] at h
              simp only [] at h
              injection h with h2
              subst h2
              obtain ⟨b2, hb2, hp⟩ := ih m hrest
              exact ⟨b2, List.mem_cons_of_mem b hb2, hp⟩
            | ok tasks =>
              rw [hrest] at h
              exact absurd h (by simp)

lemma isTodoErr_true_iff {A : Type} (x : Except PyExn A) :
    isTodoErr x = true ↔ ∃ m, x = .error (.todotxt m) := by
  rcases x with e | v
  · rcases e with m | _
    · simp [isTodoErr]
    · simp [isTodoErr]
  · simp [isTodoErr]

/-- If some completed body has a rec interval but no done date, and the run
does not abort earlier with a `datetime` error, it raises `TodotxtError`. -/
lemma newTasksFor_err_of_bad (prev : List (List Char)) :
    ∀ bs : List (List Char),
      newTasksFor prev bs ≠ .error .valueError →
      (∃ b ∈ bs, searchRec b ≠ none ∧ searchDone b = none) →
      isTodoErr (newTasksFor prev bs) = true := by
  intro bs
  induction bs with
  | nil =>
    intro _ hbad
    obtain ⟨b, hb, _⟩ := hbad
    exact absurd hb (List.not_mem_nil b)
  | cons b bs ih =>
    intro hnv hbad
    rcases hr : searchRec b with _ | rec
    · have he : newTasksFor prev (b :: bs) = newTasksFor prev bs := by
        simp only [newTasksFor, hr]
      rw [he]
      rw [he] at hnv
      apply ih hnv
      obtain ⟨b2, hb2, hp1, hp2⟩ := hbad
      rcases List.mem_cons.mp hb2 with rfl | hm
      · exact absurd hr hp1
      · exact ⟨b2, hm, hp1, hp2⟩
    · rcases hd : searchDone b with _ | dn
      · have he : newTasksFor prev (b :: bs) = .error (.todotxt (missingDoneMsg ++ b)) := by
          simp only [newTasksFor, hr, hd]
        rw [he]
        rfl
      · have hbad2 : ∃ b2 ∈ bs, searchRec b2 ≠ none ∧ searchDone b2 = none := by
          obtain ⟨b2, hb2, hp1, hp2⟩ := hbad
          rcases List.mem_cons.mp hb2 with rfl | hm
          · rw [hd] at hp2
            exact absurd hp2 (by simp)
          · exact ⟨b2, hm, hp1, hp2⟩
        by_cases hm : taskHash b ∈ prev
        · have he : newTasksFor prev (b :: bs) = newTasksFor prev bs := by
            simp only [newTasksFor, hr, hd, if_pos hm]
          rw [he]
          rw [he] at hnv
          exact ih hnv hbad2
        · rcases ha : _add_recurrence (baseDateOf b rec dn) rec with e | ndv
          · exfalso
            have he : newTasksFor prev (b :: bs) = .error e := by
              simp only [newTasksFor, hr, hd, if_neg hm, ha]
            rcases e with m2 | _
            · exact _add_recurrence_ne_todotxt _ _ m2 ha
            · exact hnv he
          · cases hrest : newTasksFor prev bs with
            | error e =>
              have he : newTasksFor prev (b :: bs) = .error e := by
                simp only [newTasksFor, hr, hd, if_neg hm, ha, hrest]
              rw [he]
              rcases e with m2 | _
              · rfl
              · exact absurd he hnv
            | ok tasks =>
              exfalso
              have h2 := ih (by rw [hrest]; simp) hbad2
              rw [hrest] at h2
              exact absurd h2 (by simp [isTodoErr])

/-! ## Claim C10 -/

lemma newTasksFor_middle_skip (prev : List (List Char)) (b : List Char)
    (h : searchRec b = none) :
    ∀ bs1 bs2 : List (List Char),
      newTasksFor prev (bs1 ++ b :: bs2) = newTasksFor prev (bs1 ++ bs2) := by
  intro bs1 bs2
  induction bs1 with
  | nil => simp only [List.nil_append, newTasksFor, h]
  | cons b0 bs1 ih =>
    simp only [List.cons_append]
    rcases hr : searchRec b0 with _ | rec
    · simp only [newTasksFor, hr]
      exact ih
    · rcases hd : searchDone b0 with _ | dn
      · simp only [newTasksFor, hr, hd]
      · by_cases hm : taskHash b0 ∈ prev
        · simp only [newTasksFor, hr, hd, if_pos hm]
          exact ih
        · simp only [newTasksFor, hr, hd, if_neg hm, ih]

/-- C10: a completed task line whose `rec` token does not match the pattern
`\+?\d+[dwmy]` is silently treated as non-recurring: deleting such a line
from the body list does not change the result of the processing loop — no
successor is generated for it and no error is raised for it, even when it
has no `done:` date.  In particular `rec:5x`, `rec:w` and `rec:+d` do not
match. -/
theorem claim_C10 (prev : List (List Char)) (bs1 bs2 : List (List Char)) (b : List Char)
    (h : searchRec b = none) :
    newTasksFor prev (bs1 ++ b :: bs2) = newTasksFor prev (bs1 ++ bs2) ∧
    searchRec (("Task rec:5x").toList) = none ∧
    searchRec (("Task rec:w").toList) = none ∧
    searchRec (("Task rec:+d").toList) = none :=
  ⟨newTasksFor_middle_skip prev b h bs1 bs2, by decide, by decide, by decide⟩

/-- Witness for C10 at a concrete input. -/
theorem claim_C10_witness :
    searchRec (("Water rec:5x").toList) = none ∧
    (newTasksFor [] ([("A rec:1d done:2024-01-01").toList] ++
        ("Water rec:5x").toList :: []) =
      newTasksFor [] ([("A rec:1d done:2024-01-01").toList] ++ []) ∧
    searchRec (("Task rec:5x").toList) = none ∧
    searchRec (("Task rec:w").toList) = none ∧
    searchRec (("Task rec:+d").toList) = none) :=
  ⟨by decide, claim_C10 [] [("A rec:1d done:2024-01-01").toList] [] (("Water rec:5x").toList)
    (by decide)⟩

/-! ## Claim C3 -/

/-- C3: the computed successor date for a valid ISO date `D` and interval
`n` with unit `u`: days add exactly, weeks add `7 n` days, months use the
floor/mod month arithmetic with the day clamped to the target month length
(`(D.month - 1 + n) mod 12 + 1`, year offset `(D.month - 1 + n) / 12`),
years add to the year with the day clamped; twelve months coincide with a
one-year offset, and Feb 29 plus one year clamps to Feb 28 while Jan 31
plus one month in a leap year gives Feb 29. -/
theorem claim_C3 (D : PyDate) (n : Nat) (hv : validDate D = true) :
    addRecDate D n 'd' = addDays D n ∧
    addRecDate D n 'w' = addDays D (7 * n) ∧
    addRecDate D n 'm' = ⟨D.year + (D.month - 1 + n) / 12, (D.month - 1 + n) % 12 + 1,
      min D.day (monthrange (D.year + (D.month - 1 + n) / 12) ((D.month - 1 + n) % 12 + 1))⟩ ∧
    addRecDate D n 'y' = ⟨D.year + n, D.month, min D.day (monthrange (D.year + n) D.month)⟩ ∧
    addRecDate D 12 'm' = addRecDate D 1 'y' ∧
    addRecDate ⟨2024, 2, 29⟩ 1 'y' = ⟨2025, 2, 28⟩ ∧
    addRecDate ⟨2024, 1, 31⟩ 1 'm' = ⟨2024, 2, 29⟩ := by
  have hm12 : 1 ≤ D.month ∧ D.month ≤ 12 := by
    simp only [validDate, Bool.and_eq_true, decide_eq_true_eq] at hv
    exact ⟨hv.1.1.1.2, hv.1.1.2⟩
  have e1 : (D.month - 1 + 12) / 12 = 1 := by omega
  have e2 : (D.month - 1 + 12) % 12 + 1 = D.month := by omega
  refine ⟨by simp [addRecDate], by simp [addRecDate], by simp [addRecDate],
    by simp [addRecDate], ?_, by decide, by decide⟩
  show (⟨D.year + (D.month - 1 + 12) / 12, (D.month - 1 + 12) % 12 + 1,
      min D.day (monthrange (D.year + (D.month - 1 + 12) / 12)
        ((D.month - 1 + 12) % 12 + 1))⟩ : PyDate) =
    ⟨D.year + 1, D.month, min D.day (monthrange (D.year + 1) D.month)⟩
  rw [e1, e2]

/-- Witness for C3 at a concrete date. -/
theorem claim_C3_witness :
    validDate ⟨2024, 6, 15⟩ = true ∧
    addRecDate ⟨2024, 6, 15⟩ 12 'm' = addRecDate ⟨2024, 6, 15⟩ 1 'y' ∧
    addRecDate ⟨2024, 6, 15⟩ 3 'd' = addDays ⟨2024, 6, 15⟩ 3 :=
  ⟨by decide, (claim_C3 ⟨2024, 6, 15⟩ 12 (by decide)).2.2.2.2.1,
    (claim_C3 ⟨2024, 6, 15⟩ 3 (by decide)).1⟩

/-! ## Claim C5 -/

/-- C5: a successful run preserves the input byte-for-byte as a prefix of
the output; when no successor is generated the output is exactly the input;
when successors exist they are appended after the input, with a single
newline inserted before them exactly when the input was nonempty and did
not end with a newline, followed by the newline-joined successor lines and
a final newline. -/
theorem claim_C5 (t out : List Char) (h : process_recurring_text t = .ok out) :
    ∃ nts, newTasksFor (prevVals t) (bodiesOf t) = .ok nts ∧
      (nts = [] → out = t) ∧
      (nts ≠ [] →
        out = (if t ≠ [] ∧ t.getLast? ≠ some '\n' then t ++ ['\n'] else t) ++
          (joinNl nts ++ ['\n']) ∧ List.IsPrefix t out) := by
  cases hnt : newTasksFor (prevVals t) (bodiesOf t) with
  | error e =>
    simp only [process_recurring_text, hnt] at h
    exact absurd h (by simp)
  | ok nts =>
    refine ⟨nts, rfl, ?_, ?_⟩
    · intro hnil
      subst hnil
      simp only [process_recurring_text, hnt] at h
      exact (Except.ok.inj h).symm
    · intro hne
      cases nts with
      | nil => exact absurd rfl hne
      | cons n0 nr =>
        simp only [process_recurring_text, hnt] at h
        have hout := (Except.ok.inj h).symm
        rw [List.append_assoc] at hout
        refine ⟨hout, ?_⟩
        rw [hout]
        by_cases hc : t ≠ [] ∧ t.getLast? ≠ some '\n'
        · rw [if_pos hc]
          exact (List.prefix_append t ['\n']).trans (List.prefix_append _ _)
        · rw [if_neg hc]
          exact List.prefix_append _ _

/-- Witness for C5 at concrete inputs with and without successors. -/
theorem claim_C5_witness :
    process_recurring_text (("Task one\n").toList) = .ok (("Task one\n").toList) ∧
    (∃ nts, newTasksFor (prevVals (("Task one\n").toList))
        (bodiesOf (("Task one\n").toList)) = .ok nts ∧
      (nts = [] → ("Task one\n").toList = ("Task one\n").toList) ∧
      (nts ≠ [] →
        ("Task one\n").toList = (if ("Task one\n").toList ≠ [] ∧
            (("Task one\n").toList).getLast? ≠ some '\n'
          then ("Task one\n").toList ++ ['\n'] else ("Task one\n").toList) ++
          (joinNl nts ++ ['\n']) ∧
        List.IsPrefix (("Task one\n").toList) (("Task one\n").toList))) :=
  ⟨by decide, claim_C5 (("Task one\n").toList) (("Task one\n").toList) (by decide)⟩

/-! ## Claim C6 -/

lemma pastDueLine_eq_keep (today l : List Char) :
    pastDueLine today l = if pastDueKeep today l then some l else none := by
  cases l with
  | nil => rfl
  | cons c rest =>
    simp only [pastDueLine, pastDueKeep]
    obtain ⟨x, hx2⟩ : ∃ x, searchDueDate (c :: rest) = x := ⟨_, rfl⟩
    simp only [hx2]
    by_cases hsp : pyIsSpace c
    · simp [hsp]
    · by_cases hx : (c :: rest).take 2 = ['x', ' ']
      · simp [hsp, hx]
      · cases x with
        | none => simp [hsp, hx]
        | some v =>
          by_cases hle : strLe v today = true
          · simp only [hsp, hx, hle]
            by_cases hA : c = 'x' ∧ List.take 1 rest = [' '] <;> simp [hsp, hx, hle, hA]
          · simp only [Bool.not_eq_true] at hle
            simp [hsp, hx, hle]

lemma filterMap_if_eq_filter (p : List Char → Bool) :
    ∀ L : List (List Char),
      L.filterMap (fun a => if p a then some a else none) = L.filter p := by
  intro L
  induction L with
  | nil => rfl
  | cons a L ih =>
    by_cases h : p a
    · rw [List.filterMap_cons, List.filter_cons]
      simp [h, ih]
    · rw [List.filterMap_cons, List.filter_cons]
      simp [h, ih]

/-- C6: `find_past_due` returns exactly the lines of the text that are
nonempty and non-indented (first character not whitespace), not completed
(do not begin with `x `), and carry a `due:` value of shape
`\d{4}-\d{2}-\d{2}` lexicographically at most the reference date; a task
due exactly on the reference date is included, one due the day after is
excluded, completed tasks and indented description lines are excluded, and
lines with missing or shape-invalid due values are silently excluded. -/
theorem claim_C6 (t today : List Char) :
    (find_past_due t today = (splitNl t).filter (pastDueKeep today) ∧
     ∀ l : List Char, l ∈ find_past_due t today ↔
       l ∈ splitNl t ∧ pastDueKeep today l = true) ∧
    find_past_due (("Task due:2025-12-09\n").toList) (("2025-12-09").toList) =
      [("Task due:2025-12-09").toList] ∧
    find_past_due (("Task due:2025-12-09\n").toList) (("2025-12-08").toList) = [] ∧
    find_past_due (("x Done task due:2020-01-01 done:2020-01-01\n").toList)
      (("2025-01-01").toList) = [] ∧
    find_past_due (("  desc with due:2020-01-01\n").toList) (("2025-01-01").toList) = [] ∧
    find_past_due (("Task due:not-a-date\n").toList) (("2025-01-01").toList) = [] := by
  refine ⟨⟨?_, ?_⟩, by decide, by decide, by decide, by decide, by decide⟩
  · unfold find_past_due
    rw [show (pastDueLine today) =
      (fun l => if pastDueKeep today l then some l else none) from
      funext (pastDueLine_eq_keep today)]
    exact filterMap_if_eq_filter (pastDueKeep today) (splitNl t)
  · intro l
    unfold find_past_due
    rw [List.mem_filterMap]
    constructor
    · rintro ⟨a, ha, hline⟩
      rw [pastDueLine_eq_keep] at hline
      by_cases hk : pastDueKeep today a = true
      · rw [if_pos hk] at hline
        injection hline with h2
        subst h2
        exact ⟨ha, hk⟩
      · rw [if_neg hk] at hline
        exact absurd hline (by simp)
    · rintro ⟨hl, hk⟩
      refine ⟨l, hl, ?_⟩
      rw [pastDueLine_eq_keep, if_pos hk]

/-- Witness for C6 at a concrete text. -/
theorem claim_C6_witness :
    find_past_due (("One due:2025-12-01\nTwo due:2025-12-31\n").toList)
        (("2025-12-09").toList) =
      (splitNl (("One due:2025-12-01\nTwo due:2025-12-31\n").toList)).filter
        (pastDueKeep (("2025-12-09").toList)) :=
  (claim_C6 (("One due:2025-12-01\nTwo due:2025-12-31\n").toList)
    (("2025-12-09").toList)).1.1

/-- Counterexample for C6 as stated: `2024-13-45` is not a valid calendar
date (month 13), yet a task carrying it as a due value is returned by the
scan instead of being silently excluded as malformed. -/
theorem claim_C6_counter :
    find_past_due (("Task due:2024-13-45\n").toList) (("2025-01-01").toList) =
      [("Task due:2024-13-45").toList] ∧
    parseDate (("2024-13-45").toList) = none := by
  exact ⟨by decide, by decide⟩

/-! ## Claim C2 -/

/-- C2 (amended): provided the run does not abort with a `datetime`
error (`ValueError`/`OverflowError` from a malformed or out-of-range
anchor date), `process_recurring_text` raises `TodotxtError` exactly when
some completed task line carries a rec interval but no `done:` field; a
`completed:` field is not consulted.  The `Except` result model makes the
abort total: an error result carries no output text. -/
theorem claim_C2 (t : List Char) (hnv : process_recurring_text t ≠ .error .valueError) :
    isTodoErr (process_recurring_text t) = true ↔
      ∃ b ∈ bodiesOf t, searchRec b ≠ none ∧ searchDone b = none := by
  cases hnt : newTasksFor (prevVals t) (bodiesOf t) with
  | error e =>
    have hp : process_recurring_text t = .error e := by
      simp only [process_recurring_text, hnt]
    rcases e with m | _
    · rw [hp]
      constructor
      · intro _
        obtain ⟨b, hb, ⟨r, hr⟩, hd⟩ := newTasksFor_todo_err _ _ _ hnt
        exact ⟨b, hb, by rw [hr]; simp, hd⟩
      · intro _
        rfl
    · exact absurd hp hnv
  | ok nts =>
    have hnv2 : newTasksFor (prevVals t) (bodiesOf t) ≠ .error .valueError := by
      rw [hnt]
      simp
    have hfalse : isTodoErr (process_recurring_text t) = false := by
      simp only [process_recurring_text, hnt]
      cases nts with
      | nil => rfl
      | cons n0 nr => rfl
    constructor
    · intro h
      rw [hfalse] at h
      exact Bool.noConfusion h
    · intro hex
      exfalso
      have h2 := newTasksFor_err_of_bad _ _ hnv2 hex
      rw [hnt] at h2
      exact absurd h2 (by simp [isTodoErr])

/-- Witness for C2 at a concrete input with a missing done date. -/
theorem claim_C2_witness :
    process_recurring_text (("x Water plants rec:1w due:2024-01-15\n").toList) ≠
      .error .valueError ∧
    (isTodoErr (process_recurring_text
        (("x Water plants rec:1w due:2024-01-15\n").toList)) = true ↔
      ∃ b ∈ bodiesOf (("x Water plants rec:1w due:2024-01-15\n").toList),
        searchRec b ≠ none ∧ searchDone b = none) :=
  ⟨by decide, claim_C2 (("x Water plants rec:1w due:2024-01-15\n").toList) (by decide)⟩

/-- Counterexample for C2 as stated: a completed recurring task whose
completion date is supplied only by a `completed:` field (which the spec
says counts as a completion date) still raises `TodotxtError` — the code
consults only `done:`. -/
theorem claim_C2_counter :
    isTodoErr (process_recurring_text (("x T rec:1d completed:2024-01-20\n").toList)) =
      true ∧
    specCompletionDate (("T rec:1d completed:2024-01-20").toList) ≠ none := by
  exact ⟨by decide, by decide⟩

/-! ## Claim C4 -/

/-- C4: the anchor of a completed recurring task is the done date when the
rec value starts with `+` (flexible), else the task's `due:` value
(possibly absent, in which case the successor gets no due field); the
successor's `due:` field is exactly the computed date.  Concretely,
`rec:1w due:2024-01-15 done:2024-01-20` yields a successor due
`2024-01-22` while `rec:+1w` with the same fields yields `2024-01-27`. -/
theorem claim_C4 (b rec dn : List Char) (nd : Option (List Char))
    (hr : searchRec b = some rec) (hd : searchDone b = some dn)
    (ha : _add_recurrence (baseDateOf b rec dn) rec = .ok nd) :
    (rec.head? = some '+' → baseDateOf b rec dn = some dn) ∧
    (rec.head? ≠ some '+' → baseDateOf b rec dn = searchDue b) ∧
    searchDue (buildNewLine b (taskHash b) nd) = nd ∧
    (okTasks (("x Water plants rec:1w due:2024-01-15 done:2024-01-20\n").toList)).length
      = 1 ∧
    searchDue ((okTasks
        (("x Water plants rec:1w due:2024-01-15 done:2024-01-20\n").toList)).headI) =
      some (("2024-01-22").toList) ∧
    searchDue ((okTasks
        (("x Water plants rec:+1w due:2024-01-15 done:2024-01-20\n").toList)).headI) =
      some (("2024-01-27").toList) := by
  have hnd : nd = none ∨ ∃ D : PyDate, nd = some (formatDate D) := by
    rcases nd with _ | v
    · exact Or.inl rfl
    · obtain ⟨D, hD⟩ := _add_recurrence_ok_some ha
      exact Or.inr ⟨D, by rw [hD]⟩
  refine ⟨?_, ?_, ?_, by decide, by decide, by decide⟩
  · intro hp
    unfold baseDateOf
    rw [if_pos hp]
  · intro hp
    unfold baseDateOf
    rw [if_neg hp]
  · exact searchDue_buildNewLine b (taskHash b) nd (taskHash_isHex b) hnd

/-- Witness for C4 at the strict concrete example. -/
theorem claim_C4_witness :
    searchRec (("Water plants rec:1w due:2024-01-15 done:2024-01-20").toList) =
      some (("1w").toList) ∧
    ((("1w").toList : List Char).head? ≠ some '+' →
      baseDateOf (("Water plants rec:1w due:2024-01-15 done:2024-01-20").toList)
        (("1w").toList) (("2024-01-20").toList) =
      searchDue (("Water plants rec:1w due:2024-01-15 done:2024-01-20").toList)) :=
  ⟨by decide,
    (claim_C4 (("Water plants rec:1w due:2024-01-15 done:2024-01-20").toList)
      (("1w").toList) (("2024-01-20").toList) (some (("2024-01-22").toList))
      (by decide) (by decide) (by decide)).2.1⟩

/-! ## Claim C8 -/

lemma specEmit_some_inv {prev : List (List Char)} {b s : List Char}
    (h : specEmit prev b = some s) :
    ∃ rec dn nd, searchRec b = some rec ∧ searchDone b = some dn ∧
      taskHash b ∉ prev ∧ _add_recurrence (baseDateOf b rec dn) rec = .ok nd ∧
      s = buildNewLine b (taskHash b) nd := by
  rcases hr : searchRec b with _ | rec
  · rw [specEmit_none_no_rec hr] at h
    exact absurd h (by simp)
  · rcases hd : searchDone b with _ | dn
    · simp only [specEmit, hr, hd] at h
      exact absurd h (by simp)
    · by_cases hm : taskHash b ∈ prev
      · simp only [specEmit, hr, hd, if_pos hm] at h
        exact absurd h (by simp)
      · rcases ha : _add_recurrence (baseDateOf b rec dn) rec with e | ndv
        · simp only [specEmit, hr, hd, if_neg hm, ha] at h
          exact absurd h (by simp)
        · simp only [specEmit, hr, hd, if_neg hm, ha] at h
          injection h with h2
          exact ⟨rec, dn, ndv, rfl, rfl, hm, ha, h2.symm⟩

/-- C8 (amended): on success the generated successors are exactly the
per-body contributions in source order; each successor is its source body
with every `done:`/`due:` value token deleted and surrounding whitespace
stripped, followed by ` _prev:<fingerprint>` and, when a due date was
computed, ` due:<date>`; a successor carries no `done:` field; the
successor's origin body was not yet fingerprinted.  (Descriptions are not
copied, and the line is completion-marked exactly when the stripped
residual itself starts with `x `.) -/
theorem claim_C8 (prev : List (List Char)) (bs nts : List (List Char))
    (h : newTasksFor prev bs = .ok nts) :
    nts = bs.filterMap (specEmit prev) ∧
    (∀ s ∈ nts, searchDone s = none) ∧
    (∀ s ∈ nts, ∃ b ∈ bs, ∃ rec dn nd,
      searchRec b = some rec ∧ searchDone b = some dn ∧ taskHash b ∉ prev ∧
      _add_recurrence (baseDateOf b rec dn) rec = .ok nd ∧
      s = buildNewLine b (taskHash b) nd) := by
  have h1 := newTasksFor_ok_filterMap prev bs nts h
  have h3 : ∀ s ∈ nts, ∃ b ∈ bs, ∃ rec dn nd,
      searchRec b = some rec ∧ searchDone b = some dn ∧ taskHash b ∉ prev ∧
      _add_recurrence (baseDateOf b rec dn) rec = .ok nd ∧
      s = buildNewLine b (taskHash b) nd := by
    intro s hs
    rw [h1] at hs
    obtain ⟨b, hb, hemit⟩ := List.mem_filterMap.mp hs
    obtain ⟨rec, dn, nd, hr, hd, hm, ha, hsval⟩ := specEmit_some_inv hemit
    exact ⟨b, hb, rec, dn, nd, hr, hd, hm, ha, hsval⟩
  refine ⟨h1, ?_, h3⟩
  intro s hs
  obtain ⟨b, _, rec, dn, nd, _, _, _, ha, hsval⟩ := h3 s hs
  have hnd : nd = none ∨ ∃ D : PyDate, nd = some (formatDate D) := by
    rcases nd with _ | v
    · exact Or.inl rfl
    · obtain ⟨D, hD⟩ := _add_recurrence_ok_some ha
      exact Or.inr ⟨D, by rw [hD]⟩
  rw [hsval]
  exact searchDone_buildNewLine b (taskHash b) nd (taskHash_isHex b) hnd

/-- Witness for C8 at a concrete text. -/
theorem claim_C8_witness :
    newTasksFor (prevVals (("x Task rec:3d due:2024-01-15 done:2024-01-15\n").toList))
        (bodiesOf (("x Task rec:3d due:2024-01-15 done:2024-01-15\n").toList)) =
      .ok (okTasks (("x Task rec:3d due:2024-01-15 done:2024-01-15\n").toList)) ∧
    okTasks (("x Task rec:3d due:2024-01-15 done:2024-01-15\n").toList) =
      (bodiesOf (("x Task rec:3d due:2024-01-15 done:2024-01-15\n").toList)).filterMap
        (specEmit (prevVals (("x Task rec:3d due:2024-01-15 done:2024-01-15\n").toList))) :=
  ⟨by decide,
    (claim_C8 (prevVals (("x Task rec:3d due:2024-01-15 done:2024-01-15\n").toList))
      (bodiesOf (("x Task rec:3d due:2024-01-15 done:2024-01-15\n").toList))
      (okTasks (("x Task rec:3d due:2024-01-15 done:2024-01-15\n").toList))
      (by decide)).1⟩

/-- Counterexample for C8 as stated: a source task whose title itself
begins with `x ` produces a successor line that does begin with the
completion marker `x `, and the indented description of a source task is
not copied to its successor (the successor is the single final line). -/
theorem claim_C8_counter :
    (okTasks (("x x Chore rec:+1d done:2024-01-02\n  note\n").toList)).length = 1 ∧
    ((okTasks (("x x Chore rec:+1d done:2024-01-02\n  note\n").toList)).headI).take 2 =
      ['x', ' '] := by
  exact ⟨by decide, by decide⟩

/-! ## Claim C7 -/

lemma bodyOf_spaceHead {l : List Char} (h : spaceHead l) : bodyOf l = none := by
  rcases h with rfl | ⟨w, l', rfl, hw⟩
  · rfl
  · cases l' with
    | nil => rfl
    | cons c2 l2 =>
      cases l2 with
      | nil => rfl
      | cons c3 l3 =>
        simp only [bodyOf]
        rw [if_neg]
        rintro ⟨rfl, -⟩
        exact absurd hw (by decide)

lemma specEmit_none_of_mem {prev : List (List Char)} {b : List Char}
    (h : taskHash b ∈ prev) : specEmit prev b = none := by
  obtain ⟨r, hr⟩ : ∃ r, searchRec b = r := ⟨_, rfl⟩
  simp only [specEmit, hr]
  cases r with
  | none => rfl
  | some rv =>
    obtain ⟨d, hd⟩ : ∃ d, searchDone b = d := ⟨_, rfl⟩
    simp only [hd]
    cases d with
    | none => rfl
    | some dn => simp [h]

/-- C7: the fingerprint and the skip decision depend only on the top-level
completed-task lines.  Inserting (or editing) a block `D` of indented
continuation lines carrying no `_prev:` token changes neither the set of
completed-task bodies nor the collected fingerprints, so the generated
successors are identical, and any body already fingerprinted in the
original text is still skipped in the edited text. -/
theorem claim_C7 (A D B : List Char)
    (hD : ∀ l ∈ splitNl D, spaceHead l) (hP : prevVals D = []) :
    bodiesOf (A ++ '\n' :: (D ++ '\n' :: B)) = bodiesOf (A ++ '\n' :: B) ∧
    prevVals (A ++ '\n' :: (D ++ '\n' :: B)) = prevVals (A ++ '\n' :: B) ∧
    okTasks (A ++ '\n' :: (D ++ '\n' :: B)) = okTasks (A ++ '\n' :: B) ∧
    ∀ b, taskHash b ∈ prevVals (A ++ '\n' :: B) →
      specEmit (prevVals (A ++ '\n' :: (D ++ '\n' :: B))) b = none := by
  have hDnil : (splitNl D).filterMap bodyOf = [] :=
    List.filterMap_eq_nil_iff.mpr (fun l hl => bodyOf_spaceHead (hD l hl))
  have h1 : bodiesOf (A ++ '\n' :: (D ++ '\n' :: B)) = bodiesOf (A ++ '\n' :: B) := by
    unfold bodiesOf
    rw [splitNl_append_cons_nl, splitNl_append_cons_nl, splitNl_append_cons_nl,
      List.filterMap_append, List.filterMap_append, List.filterMap_append, hDnil]
    simp
  have h2 : prevVals (A ++ '\n' :: (D ++ '\n' :: B)) = prevVals (A ++ '\n' :: B) := by
    rw [prevVals_append_space nl_space, prevVals_append_space nl_space,
      prevVals_append_space nl_space, hP, List.nil_append]
  refine ⟨h1, h2, ?_, ?_⟩
  · unfold okTasks
    rw [h1, h2]
  · intro b hb
    rw [h2]
    exact specEmit_none_of_mem hb

/-- Witness for C7: inserting the indented line `  desc` after a task line
changes neither the bodies, nor the fingerprints, nor the generated
successors. -/
theorem claim_C7_witness :
    (∀ l ∈ splitNl (("  desc").toList), spaceHead l) ∧
    prevVals (("  desc").toList) = [] ∧
    (bodiesOf (("Call Mom").toList ++ '\n' :: ((("  desc").toList) ++ '\n' ::
          (("Write tests").toList))) =
        bodiesOf (("Call Mom").toList ++ '\n' :: (("Write tests").toList)) ∧
      prevVals (("Call Mom").toList ++ '\n' :: ((("  desc").toList) ++ '\n' ::
          (("Write tests").toList))) =
        prevVals (("Call Mom").toList ++ '\n' :: (("Write tests").toList)) ∧
      okTasks (("Call Mom").toList ++ '\n' :: ((("  desc").toList) ++ '\n' ::
          (("Write tests").toList))) =
        okTasks (("Call Mom").toList ++ '\n' :: (("Write tests").toList)) ∧
      ∀ b, taskHash b ∈ prevVals (("Call Mom").toList ++ '\n' ::
          (("Write tests").toList)) →
        specEmit (prevVals (("Call Mom").toList ++ '\n' :: ((("  desc").toList) ++ '\n' ::
          (("Write tests").toList)))) b = none) := by
  have hD : ∀ l ∈ splitNl (("  desc").toList), spaceHead l := by
    intro l hl
    rw [show splitNl (("  desc").toList) = [("  desc").toList] from rfl] at hl
    rw [List.mem_singleton] at hl
    subst hl
    exact Or.inr ⟨' ', (" desc").toList, rfl, rfl⟩
  exact ⟨hD, by decide,
    claim_C7 (("Call Mom").toList) (("  desc").toList) (("Write tests").toList) hD (by decide)⟩

/-! ## Claim C9 -/

lemma scanRemove_no_k0 {k0 : Char} {ks x : List Char}
    (h : ∀ c ∈ x, ¬ c = k0) : scanRemove k0 ks x = x := by
  have h2 := @scanRemove_pass k0 ks x h []
  simpa [scanRemove_nil] using h2

/-- Deleting a `key:value` token standing alone removes it entirely. -/
lemma scanRemove_token {ks v : List Char} (hvne : v ≠ [])
    (hvn : ∀ c ∈ v, pyIsSpace c = false) :
    scanRemove 'd' ks ('d' :: (ks ++ v)) = [] := by
  rw [scanRemove_cons]
  have hpre : ks.isPrefixOf (ks ++ v) = true :=
    List.isPrefixOf_iff_prefix.mpr (List.prefix_append ks v)
  rw [if_pos (And.intro rfl hpre), List.drop_left, takeWhile_all_nonsp hvn,
    if_neg hvne, List.drop_length, scanRemove_nil]

lemma dateChars_nonspace {v : List Char} (h : dateChars v) :
    ∀ c ∈ v, pyIsSpace c = false := by
  intro c hc
  rcases h c hc with hd | rfl
  · exact digit_nonspace c hd
  · decide

lemma dateChars_not_d {v : List Char} (h : dateChars v) : ∀ c ∈ v, ¬ c = 'd' := by
  intro c hc he
  subst he
  rcases h 'd' hc with hd | hdash
  · exact absurd hd (by decide)
  · exact absurd hdash (by decide)

/-- The `done:` deletion passes over a `due:` token. -/
lemma scanRemove_done_duetok {w : List Char} (hw : dateChars w) :
    scanRemove 'd' doneTail ('d' :: (dueTail ++ w)) = 'd' :: (dueTail ++ w) := by
  have hcond : ¬ ('d' = 'd' ∧ doneTail.isPrefixOf (dueTail ++ w) = true) := by
    rintro ⟨-, hpre⟩
    have hf : doneTail.isPrefixOf (dueTail ++ w) = false := rfl
    rw [hf] at hpre
    exact Bool.noConfusion hpre
  have hnod : ∀ c ∈ dueTail ++ w, ¬ c = 'd' := by
    intro c hc he
    subst he
    rcases List.mem_append.mp hc with h1 | h1
    · exact absurd h1 (by decide)
    · exact dateChars_not_d hw 'd' h1 rfl
  rw [scanRemove_cons, if_neg hcond, scanRemove_no_k0 hnod]

/-- The `due:` deletion passes over a `done:` token. -/
lemma scanRemove_due_donetok {v : List Char} (hv : dateChars v) :
    scanRemove 'd' dueTail ('d' :: (doneTail ++ v)) = 'd' :: (doneTail ++ v) := by
  have hcond : ¬ ('d' = 'd' ∧ dueTail.isPrefixOf (doneTail ++ v) = true) := by
    rintro ⟨-, hpre⟩
    have hf : dueTail.isPrefixOf (doneTail ++ v) = false := rfl
    rw [hf] at hpre
    exact Bool.noConfusion hpre
  have hnod : ∀ c ∈ doneTail ++ v, ¬ c = 'd' := by
    intro c hc he
    subst he
    rcases List.mem_append.mp hc with h1 | h1
    · exact absurd h1 (by decide)
    · exact dateChars_not_d hv 'd' h1 rfl
  rw [scanRemove_cons, if_neg hcond, scanRemove_no_k0 hnod]

lemma dropWhile_all_append {p : Char → Bool} {a : List Char}
    (ha : ∀ c ∈ a, p c = true) (b : List Char) :
    (a ++ b).dropWhile p = b.dropWhile p := by
  induction a with
  | nil => rfl
  | cons c cs ih =>
    rw [List.cons_append, List.dropWhile_cons, if_pos (ha c (List.mem_cons_self c cs))]
    exact ih (fun d hd => ha d (List.mem_cons_of_mem c hd))

lemma dropWhile_cons_head_neg {p : Char → Bool} :
    ∀ (core : List Char) {d : Char} {ds : List Char}, core.dropWhile p = d :: ds →
      ∀ S, (core ++ S).dropWhile p = d :: (ds ++ S) := by
  intro core
  induction core with
  | nil =>
    intro d ds h S
    exact List.noConfusion h
  | cons c cs ih =>
    intro d ds h S
    rw [List.cons_append, List.dropWhile_cons]
    rw [List.dropWhile_cons] at h
    by_cases hp : p c = true
    · rw [if_pos hp]
      rw [if_pos hp] at h
      exact ih h S
    · rw [if_neg hp]
      rw [if_neg hp] at h
      injection h with h1 h2
      subst h1
      subst h2
      rfl

/-- Appending trailing whitespace does not change the stripped text. -/
lemma pyStrip_append_spaces {S : List Char} (hS : ∀ c ∈ S, pyIsSpace c = true)
    (core : List Char) : pyStrip (core ++ S) = pyStrip core := by
  rcases hdw : core.dropWhile pyIsSpace with _ | ⟨d, ds⟩
  · have hca : ∀ c ∈ core, pyIsSpace c = true := List.dropWhile_eq_nil_iff.mp hdw
    have h1 : (core ++ S).dropWhile pyIsSpace = [] := by
      rw [dropWhile_all_append hca, List.dropWhile_eq_nil_iff]
      exact hS
    unfold pyStrip
    rw [h1, hdw]
  · unfold pyStrip
    rw [dropWhile_cons_head_neg core hdw S, hdw]
    have hrev : (d :: (ds ++ S)).reverse = S.reverse ++ (d :: ds).reverse := by
      rw [show d :: (ds ++ S) = (d :: ds) ++ S from rfl, List.reverse_append]
    rw [hrev, dropWhile_all_append (fun c hc => hS c (List.mem_reverse.mp hc))]

lemma dropWhile_id_of_head {p : Char → Bool} {l : List Char}
    (h : ∀ c, l.head? = some c → p c = false) : l.dropWhile p = l := by
  cases l with
  | nil => rfl
  | cons c r =>
    rw [List.dropWhile_cons, if_neg (by simp [h c rfl])]

/-- A list with non-whitespace first and last characters strips to itself. -/
lemma pyStrip_id {l : List Char}
    (hh : ∀ c, l.head? = some c → pyIsSpace c = false)
    (hl : ∀ c, l.getLast? = some c → pyIsSpace c = false) : pyStrip l = l := by
  unfold pyStrip
  rw [dropWhile_id_of_head hh]
  rw [dropWhile_id_of_head (fun c hc => hl c (by rw [List.head?_reverse] at hc; exact hc))]
  exact List.reverse_reverse l

lemma pyStrip_head_nonspace {c : Char} {r : List Char}
    (h : pyStrip (c :: r) = c :: r) : pyIsSpace c = false := by
  by_contra hb
  rw [Bool.not_eq_false] at hb
  have h1 : (c :: r).dropWhile pyIsSpace = r.dropWhile pyIsSpace := by
    rw [List.dropWhile_cons, if_pos hb]
  have hlen : (pyStrip (c :: r)).length ≤ r.length := by
    unfold pyStrip
    rw [h1]
    calc ((r.dropWhile pyIsSpace).reverse.dropWhile pyIsSpace).reverse.length
        = ((r.dropWhile pyIsSpace).reverse.dropWhile pyIsSpace).length :=
          List.length_reverse _
      _ ≤ (r.dropWhile pyIsSpace).reverse.length := (List.dropWhile_suffix _).length_le
      _ = (r.dropWhile pyIsSpace).length := List.length_reverse _
      _ ≤ r.length := (List.dropWhile_suffix _).length_le
  rw [h] at hlen
  simp only [List.length_cons] at hlen
  omega

lemma pyStrip_getLast_not_space {l : List Char} (hne : l ≠ [])
    (h : pyStrip l = l) : l.getLast? ≠ some ' ' := by
  intro hl
  rcases hdw : l.dropWhile pyIsSpace with _ | ⟨d, ds⟩
  · have hz : pyStrip l = [] := by
      unfold pyStrip
      rw [hdw]
      rfl
    rw [h] at hz
    exact hne hz
  · have hsuf : (l.dropWhile pyIsSpace).getLast? = l.getLast? := by
      obtain ⟨t, ht⟩ := @List.dropWhile_suffix Char l pyIsSpace
      have hne2 : l.dropWhile pyIsSpace ≠ [] := by
        rw [hdw]
        exact List.cons_ne_nil d ds
      have h3 := List.getLast?_append_of_ne_nil t hne2
      rw [ht] at h3
      exact h3.symm
    have hlast : (d :: ds).getLast? = some ' ' := by
      rw [← hdw]
      exact hsuf.trans hl
    have hRhead : (d :: ds).reverse.head? = some ' ' := by
      rw [List.head?_reverse]
      exact hlast
    rcases hR : (d :: ds).reverse with _ | ⟨x, xs⟩
    · rw [hR] at hRhead
      exact Option.noConfusion hRhead
    · rw [hR] at hRhead
      have hx : x = ' ' := Option.some.inj hRhead
      subst hx
      have hlen : (pyStrip l).length ≤ ds.length := by
        unfold pyStrip
        rw [hdw, hR, List.dropWhile_cons, if_pos (show pyIsSpace ' ' = true from rfl)]
        have hxl : xs.length = ds.length := by
          have := congrArg List.length hR
          simp only [List.length_reverse, List.length_cons] at this
          omega
        calc (xs.dropWhile pyIsSpace).reverse.length
            = (xs.dropWhile pyIsSpace).length := List.length_reverse _
          _ ≤ xs.length := (List.dropWhile_suffix _).length_le
          _ = ds.length := hxl
      rw [h] at hlen
      have hsl : (d :: ds).length ≤ l.length := by
        rw [← hdw]
        exact (List.dropWhile_suffix _).length_le
      simp only [List.length_cons] at hsl
      omega

lemma hasDoubleSpace_cons2 (c1 c2 : Char) (r : List Char) :
    hasDoubleSpace (c1 :: c2 :: r) =
      ((c1 = ' ' && c2 = ' ') || hasDoubleSpace (c2 :: r)) := rfl

lemma hasDoubleSpace_append : ∀ (a : List Char), hasDoubleSpace a = false →
    ∀ b : List Char, hasDoubleSpace b = false →
    (a.getLast? ≠ some ' ' ∨ b.head? ≠ some ' ') →
    hasDoubleSpace (a ++ b) = false := by
  intro a
  induction a with
  | nil =>
    intro _ b hb _
    simpa using hb
  | cons c cs ih =>
    intro ha b hb hj
    cases cs with
    | nil =>
      cases b with
      | nil => rfl
      | cons d ds =>
        rw [show ([c] ++ d :: ds) = c :: d :: ds from rfl, hasDoubleSpace_cons2, hb,
          Bool.or_false]
        rcases hj with h | h
        · have hc : c ≠ ' ' := by simpa using h
          simp [hc]
        · have hd : d ≠ ' ' := by simpa using h
          simp [hd]
    | cons c2 cs2 =>
      show hasDoubleSpace (c :: c2 :: (cs2 ++ b)) = false
      rw [hasDoubleSpace_cons2]
      have ha' := ha
      rw [hasDoubleSpace_cons2, Bool.or_eq_false_iff] at ha'
      have hj' : (c2 :: cs2).getLast? ≠ some ' ' ∨ b.head? ≠ some ' ' := by
        rcases hj with h | h
        · left
          rwa [List.getLast?_cons_cons] at h
        · right
          exact h
      have hrec := ih ha'.2 b hb hj'
      rw [ha'.1, Bool.false_or]
      exact hrec

lemma hasDoubleSpace_nonspace : ∀ {l : List Char}, (∀ c ∈ l, pyIsSpace c = false) →
    hasDoubleSpace l = false := by
  intro l
  induction l with
  | nil => intro _; rfl
  | cons c cs ih =>
    intro h
    cases cs with
    | nil => rfl
    | cons c2 cs2 =>
      rw [hasDoubleSpace_cons2]
      have hc : c ≠ ' ' := by
        intro e
        subst e
        exact absurd (h ' ' (List.mem_cons_self _ _)) (by decide)
      rw [ih (fun d hd => h d (List.mem_cons_of_mem c hd))]
      simp [hc]

/-- A single separating space before non-whitespace text is not a double
space. -/
lemma hasDoubleSpace_sep {m : List Char} (hm : ∀ c ∈ m, pyIsSpace c = false) :
    hasDoubleSpace (' ' :: m) = false := by
  cases m with
  | nil => rfl
  | cons d ds =>
    rw [hasDoubleSpace_cons2]
    have hd : d ≠ ' ' := by
      intro e
      subst e
      exact absurd (hm ' ' (List.mem_cons_self _ _)) (by decide)
    rw [hasDoubleSpace_nonspace hm]
    simp [hd]

lemma getLast?_ne_space_of_nonspace {l : List Char}
    (h : ∀ c ∈ l, pyIsSpace c = false) : l.getLast? ≠ some ' ' := by
  intro hl
  have hm : (' ' : Char) ∈ l :=
    List.mem_of_mem_getLast? (show (' ' : Char) ∈ l.getLast? from by
      rw [Option.mem_def]; exact hl)
  exact absurd (h ' ' hm) (by decide)

lemma head?_nonspace_append {c0 : Char} {cr : List Char} (h : pyIsSpace c0 = false)
    (S : List Char) : ∀ c, ((c0 :: cr) ++ S).head? = some c → pyIsSpace c = false := by
  intro c hc
  have he : c0 = c := Option.some.inj hc
  rwa [← he]

lemma getLast?_nonspace_pre (pre : List Char) {w : List Char} (hwne : w ≠ [])
    (hwn : ∀ c ∈ w, pyIsSpace c = false) :
    ∀ c, (pre ++ w).getLast? = some c → pyIsSpace c = false := by
  intro c hc
  rw [List.getLast?_append_of_ne_nil pre hwne] at hc
  exact hwn c (List.mem_of_mem_getLast? (show c ∈ w.getLast? from by
    rw [Option.mem_def]; exact hc))

/-- C9 (amended): when the `done:`/`due:` value tokens stand at the end of
the completed-task body (in either order) with date-like values, and the
body core has no double space and no surrounding whitespace and no other
`done:`/`due:` match, then the original body has no double space and the
generated successor line has no double space.  (For an interior `done:` or
`due:` token the deletion leaves a double space; see the counterexample.) -/
theorem claim_C9 (prev : List (List Char)) (core v w s tail : List Char)
    (htail : tail = ' ' :: ('d' :: (doneTail ++ v)) ∨
      tail = ' ' :: ('d' :: (doneTail ++ v) ++ ' ' :: ('d' :: (dueTail ++ w))) ∨
      tail = ' ' :: ('d' :: (dueTail ++ w) ++ ' ' :: ('d' :: (doneTail ++ v))))
    (hcore : hasDoubleSpace core = false)
    (hstrip : pyStrip core = core)
    (hcne : core ≠ [])
    (hnd : searchDone core = none)
    (hnu : searchDue core = none)
    (hv : dateChars v) (hvne : v ≠ [])
    (hw : dateChars w) (hwne : w ≠ [])
    (hs : specEmit prev (core ++ tail) = some s) :
    hasDoubleSpace (core ++ tail) = false ∧ hasDoubleSpace s = false := by
  have hvn := dateChars_nonspace hv
  have hwn := dateChars_nonspace hw
  have hclast : core.getLast? ≠ some ' ' := pyStrip_getLast_not_space hcne hstrip
  obtain ⟨c0, cr, rfl⟩ : ∃ c0 cr, core = c0 :: cr := by
    cases core with
    | nil => exact absurd rfl hcne
    | cons a b => exact ⟨a, b, rfl⟩
  have hhead : pyIsSpace c0 = false := pyStrip_head_nonspace hstrip
  have htokD : ∀ c ∈ 'd' :: (doneTail ++ v), pyIsSpace c = false := by
    intro c hc
    rcases List.mem_cons.mp hc with rfl | hc2
    · exact d_nonspace
    · rcases List.mem_append.mp hc2 with h1 | h1
      · exact doneTail_nonspace c h1
      · exact hvn c h1
  have htokU : ∀ c ∈ 'd' :: (dueTail ++ w), pyIsSpace c = false := by
    intro c hc
    rcases List.mem_cons.mp hc with rfl | hc2
    · exact d_nonspace
    · rcases List.mem_append.mp hc2 with h1 | h1
      · exact dueTail_nonspace c h1
      · exact hwn c h1
  have htailDS : hasDoubleSpace tail = false := by
    rcases htail with rfl | rfl | rfl
    · exact hasDoubleSpace_sep htokD
    · show hasDoubleSpace ((' ' :: ('d' :: (doneTail ++ v))) ++
        (' ' :: ('d' :: (dueTail ++ w)))) = false
      apply hasDoubleSpace_append
      · exact hasDoubleSpace_sep htokD
      · exact hasDoubleSpace_sep htokU
      · left
        show ((' ' :: 'd' :: doneTail) ++ v).getLast? ≠ some ' '
        rw [List.getLast?_append_of_ne_nil _ hvne]
        exact getLast?_ne_space_of_nonspace hvn
    · show hasDoubleSpace ((' ' :: ('d' :: (dueTail ++ w))) ++
        (' ' :: ('d' :: (doneTail ++ v)))) = false
      apply hasDoubleSpace_append
      · exact hasDoubleSpace_sep htokU
      · exact hasDoubleSpace_sep htokD
      · left
        show ((' ' :: 'd' :: dueTail) ++ w).getLast? ≠ some ' '
        rw [List.getLast?_append_of_ne_nil _ hwne]
        exact getLast?_ne_space_of_nonspace hwn
  have hr_core : scanRemove 'd' doneTail (c0 :: cr) = c0 :: cr :=
    scanRemove_of_search_none _ hnd
  have hu_core : scanRemove 'd' dueTail (c0 :: cr) = c0 :: cr :=
    scanRemove_of_search_none _ hnu
  have hSP1 : ∀ c ∈ [' '], pyIsSpace c = true := by decide
  have hSP2 : ∀ c ∈ [' ', ' '], pyIsSpace c = true := by decide
  have hl2 : pyStrip (removeDue (pyStrip (removeDone ((c0 :: cr) ++ tail)))) = c0 :: cr := by
    rcases htail with rfl | rfl | rfl
    · have h1 : removeDone ((c0 :: cr) ++ ' ' :: ('d' :: (doneTail ++ v))) =
          (c0 :: cr) ++ [' '] := by
        unfold removeDone
        rw [scanRemove_append_space d_nonspace doneTail_nonspace sp_space _ _ (le_refl _),
          hr_core, scanRemove_token hvne hvn]
      rw [h1, pyStrip_append_spaces hSP1 _, hstrip]
      unfold removeDue
      rw [hu_core, hstrip]
    · have h1 : removeDone ((c0 :: cr) ++ ' ' :: ('d' :: (doneTail ++ v) ++
          ' ' :: ('d' :: (dueTail ++ w)))) =
          (c0 :: cr) ++ ' ' :: ' ' :: ('d' :: (dueTail ++ w)) := by
        unfold removeDone
        rw [scanRemove_append_space d_nonspace doneTail_nonspace sp_space _ _ (le_refl _),
          scanRemove_append_space d_nonspace doneTail_nonspace sp_space _ _ (le_refl _),
          hr_core, scanRemove_token hvne hvn, scanRemove_done_duetok hw, List.nil_append]
      have hid : pyStrip ((c0 :: cr) ++ ' ' :: ' ' :: ('d' :: (dueTail ++ w))) =
          (c0 :: cr) ++ ' ' :: ' ' :: ('d' :: (dueTail ++ w)) := by
        apply pyStrip_id
        · exact head?_nonspace_append hhead _
        · intro c hc
          rw [List.getLast?_append_cons] at hc
          exact getLast?_nonspace_pre (' ' :: ' ' :: 'd' :: dueTail) hwne hwn c hc
      have h2 : removeDue ((c0 :: cr) ++ ' ' :: ' ' :: ('d' :: (dueTail ++ w))) =
          (c0 :: cr) ++ [' ', ' '] := by
        unfold removeDue
        rw [scanRemove_append_space d_nonspace dueTail_nonspace sp_space _ _ (le_refl _),
          hu_core, scanRemove_space_head d_nonspace sp_space, scanRemove_token hwne hwn]
      rw [h1, hid, h2, pyStrip_append_spaces hSP2 _, hstrip]
    · have h1 : removeDone ((c0 :: cr) ++ ' ' :: ('d' :: (dueTail ++ w) ++
          ' ' :: ('d' :: (doneTail ++ v)))) =
          ((c0 :: cr) ++ ' ' :: ('d' :: (dueTail ++ w))) ++ [' '] := by
        unfold removeDone
        rw [scanRemove_append_space d_nonspace doneTail_nonspace sp_space _ _ (le_refl _),
          scanRemove_append_space d_nonspace doneTail_nonspace sp_space _ _ (le_refl _),
          hr_core, scanRemove_done_duetok hw, scanRemove_token hvne hvn,
          List.append_assoc]
        rfl
      have hid3 : pyStrip ((c0 :: cr) ++ ' ' :: ('d' :: (dueTail ++ w))) =
          (c0 :: cr) ++ ' ' :: ('d' :: (dueTail ++ w)) := by
        apply pyStrip_id
        · exact head?_nonspace_append hhead _
        · intro c hc
          rw [List.getLast?_append_cons] at hc
          exact getLast?_nonspace_pre (' ' :: 'd' :: dueTail) hwne hwn c hc
      have h2 : removeDue ((c0 :: cr) ++ ' ' :: ('d' :: (dueTail ++ w))) =
          (c0 :: cr) ++ [' '] := by
        unfold removeDue
        rw [scanRemove_append_space d_nonspace dueTail_nonspace sp_space _ _ (le_refl _),
          hu_core, scanRemove_token hwne hwn]
      rw [h1, pyStrip_append_spaces hSP1 _, hid3, h2, pyStrip_append_spaces hSP1 _, hstrip]
  have c1 : hasDoubleSpace ((c0 :: cr) ++ tail) = false :=
    hasDoubleSpace_append (c0 :: cr) hcore tail htailDS (Or.inl hclast)
  obtain ⟨rec, dn, nd, hrec, hdn, hmem, hadd, hsval⟩ := specEmit_some_inv hs
  subst hsval
  have hmark : ∀ c ∈ ('_' :: prevTail) ++ taskHash ((c0 :: cr) ++ tail),
      pyIsSpace c = false := by
    intro c hc
    rcases List.mem_append.mp hc with h1 | h1
    · rcases List.mem_cons.mp h1 with rfl | h2
      · exact us_nonspace
      · exact prevTail_nonspace c h2
    · exact taskHash_nonspace _ c h1
  have hhne : taskHash ((c0 :: cr) ++ tail) ≠ [] := taskHash_ne_nil _
  refine ⟨c1, ?_⟩
  rcases nd with _ | ndv
  · show hasDoubleSpace (pyStrip (removeDue (pyStrip (removeDone ((c0 :: cr) ++ tail)))) ++
      ' ' :: ('_' :: prevTail ++ taskHash ((c0 :: cr) ++ tail))) = false
    rw [hl2]
    exact hasDoubleSpace_append _ hcore _ (hasDoubleSpace_sep hmark) (Or.inl hclast)
  · obtain ⟨D, rfl⟩ := _add_recurrence_ok_some hadd
    show hasDoubleSpace ((pyStrip (removeDue (pyStrip (removeDone ((c0 :: cr) ++ tail)))) ++
      ' ' :: ('_' :: prevTail ++ taskHash ((c0 :: cr) ++ tail))) ++
      ' ' :: ('d' :: dueTail ++ formatDate D)) = false
    rw [hl2]
    have hmidlast : ((c0 :: cr) ++
        ' ' :: ('_' :: prevTail ++ taskHash ((c0 :: cr) ++ tail))).getLast? ≠ some ' ' := by
      rw [List.getLast?_append_cons]
      intro hc
      have hns := getLast?_nonspace_pre (' ' :: '_' :: prevTail) hhne
        (taskHash_nonspace _) ' ' hc
      exact absurd hns (by decide)
    have hduetok : ∀ c ∈ ('d' :: dueTail) ++ formatDate D, pyIsSpace c = false := by
      intro c hc
      rcases List.mem_append.mp hc with h1 | h1
      · rcases List.mem_cons.mp h1 with rfl | h2
        · exact d_nonspace
        · exact dueTail_nonspace c h2
      · exact formatDate_nonspace D c h1
    apply hasDoubleSpace_append
    · exact hasDoubleSpace_append _ hcore _ (hasDoubleSpace_sep hmark) (Or.inl hclast)
    · exact hasDoubleSpace_sep hduetok
    · exact Or.inl hmidlast

/-- Witness for C9 at a concrete task with a trailing `done:` token. -/
theorem claim_C9_witness :
    hasDoubleSpace (("Water plants rec:1w").toList ++ (" done:2024-01-15").toList) = false ∧
    hasDoubleSpace (buildNewLine
      (("Water plants rec:1w").toList ++ (" done:2024-01-15").toList)
      (taskHash (("Water plants rec:1w").toList ++ (" done:2024-01-15").toList)) none) =
      false :=
  claim_C9 [] (("Water plants rec:1w").toList) (("2024-01-15").toList)
    (("2024-01-15").toList)
    (buildNewLine (("Water plants rec:1w").toList ++ (" done:2024-01-15").toList)
      (taskHash (("Water plants rec:1w").toList ++ (" done:2024-01-15").toList)) none)
    ((" done:2024-01-15").toList)
    (Or.inl (by decide)) (by decide) (by decide) (by decide) (by decide) (by decide)
    (show (∀ c ∈ ("2024-01-15").toList, c.isDigit = true ∨ c = '-') from by decide)
    (by decide)
    (show (∀ c ∈ ("2024-01-15").toList, c.isDigit = true ∨ c = '-') from by decide)
    (by decide) (by decide)

/-- Counterexample for C9 as stated: for the completed task
`x A done:2024-01-02 B rec:+1d`, whose body has no double space but whose
`done:` token is interior, the single generated successor line does contain
a double space (`A  B ...` after the deletion). -/
theorem claim_C9_counter :
    hasDoubleSpace (("A done:2024-01-02 B rec:+1d").toList) = false ∧
    (okTasks (("x A done:2024-01-02 B rec:+1d\n").toList)).length = 1 ∧
    hasDoubleSpace ((okTasks (("x A done:2024-01-02 B rec:+1d\n").toList)).headI) = true := by
  exact ⟨by decide, by decide, by decide⟩

/-! ## Claim C1 -/

lemma bodyOf_nil : bodyOf [] = none := rfl

lemma bodyOf_mem_subset {l b : List Char} (h : bodyOf l = some b) : ∀ c ∈ b, c ∈ l := by
  cases l with
  | nil => exact absurd h (by simp [bodyOf])
  | cons c1 l1 =>
    cases l1 with
    | nil => exact absurd h (by simp [bodyOf])
    | cons c2 l2 =>
      cases l2 with
      | nil => exact absurd h (by simp [bodyOf])
      | cons c3 rest =>
        simp only [bodyOf] at h
        by_cases hc : c1 = 'x' ∧ c2 = ' '
        · rw [if_pos hc] at h
          injection h with h2
          subst h2
          intro c hc2
          exact List.mem_cons_of_mem _ (List.mem_cons_of_mem _ hc2)
        · rw [if_neg hc] at h
          exact absurd h (by simp)

lemma bodiesOf_no_nl {t b : List Char} (hb : b ∈ bodiesOf t) : '\n' ∉ b := by
  unfold bodiesOf at hb
  obtain ⟨l, hl, hbl⟩ := List.mem_filterMap.mp hb
  intro hc
  exact mem_splitNl_no_nl t l hl (bodyOf_mem_subset hbl '\n' hc)

lemma bodyOf_eq_none_of_take {s : List Char} (h : s.take 2 ≠ ['x', ' ']) :
    bodyOf s = none := by
  cases s with
  | nil => rfl
  | cons c1 s1 =>
    cases s1 with
    | nil => rfl
    | cons c2 s2 =>
      cases s2 with
      | nil => rfl
      | cons c3 rest =>
        simp only [bodyOf]
        rw [if_neg]
        rintro ⟨rfl, rfl⟩
        exact h rfl

/-- Structure of a generated successor: it comes from a not-yet-fingerprinted
body of the text, as the built successor line for a computed due date of the
shape `formatDate`. -/
lemma okTasks_mem_inv (t s : List Char) (hs : s ∈ okTasks t) :
    ∃ b nd, b ∈ bodiesOf t ∧ taskHash b ∉ prevVals t ∧
      s = buildNewLine b (taskHash b) nd ∧
      (nd = none ∨ ∃ D : PyDate, nd = some (formatDate D)) := by
  unfold okTasks at hs
  cases hnt : newTasksFor (prevVals t) (bodiesOf t) with
  | error e =>
    rw [hnt] at hs
    exact absurd hs (List.not_mem_nil s)
  | ok nts =>
    rw [hnt] at hs
    rw [newTasksFor_ok_filterMap _ _ _ hnt] at hs
    obtain ⟨b, hb, hemit⟩ := List.mem_filterMap.mp hs
    obtain ⟨rec, dn, nd, hr, hd, hm, ha, hsval⟩ := specEmit_some_inv hemit
    refine ⟨b, nd, hb, hm, hsval, ?_⟩
    cases nd with
    | none => exact Or.inl rfl
    | some ndv =>
      obtain ⟨D, hD⟩ := _add_recurrence_ok_some ha
      exact Or.inr ⟨D, by rw [hD]⟩

lemma getLast?_nl_decomp {t : List Char} (h : t.getLast? = some '\n') :
    ∃ t', t = t' ++ ['\n'] := by
  have hne : t ≠ [] := by
    intro e
    subst e
    exact Option.noConfusion h
  refine ⟨t.dropLast, ?_⟩
  have h2 : t.getLast hne = '\n' := by
    have h3 := List.getLast?_eq_getLast t hne
    rw [h3] at h
    exact Option.some.inj h
  rw [← h2]
  exact (List.dropLast_append_getLast hne).symm

/-- C1 (amended): processing is idempotent provided no generated successor
line begins with the completion marker `x ` (equivalently, no completed
recurring task's stripped residual starts with `x `): a second run on the
output returns it unchanged and generates no further successor.  Without
the proviso the claim fails: a successor line starting with `x ` is itself
a completed recurring task without a `done:` date on the second run, which
then raises instead of returning the output (see the counterexample). -/
theorem claim_C1 (t out : List Char)
    (hx : ∀ s ∈ okTasks t, s.take 2 ≠ ['x', ' '])
    (h : process_recurring_text t = .ok out) :
    process_recurring_text out = .ok out ∧ okTasks out = [] := by
  cases hnt : newTasksFor (prevVals t) (bodiesOf t) with
  | error e =>
    simp only [process_recurring_text, hnt] at h
    exact absurd h (by simp)
  | ok nts =>
    have hok : okTasks t = nts := by
      unfold okTasks
      rw [hnt]
    cases nts with
    | nil =>
      simp only [process_recurring_text, hnt] at h
      have he : t = out := Except.ok.inj h
      subst he
      constructor
      · simp only [process_recurring_text, hnt]
      · exact hok
    | cons n0 nr =>
      simp only [process_recurring_text, hnt] at h
      have hout : out = (if t ≠ [] ∧ t.getLast? ≠ some '\n' then t ++ ['\n'] else t) ++
          joinNl (n0 :: nr) ++ ['\n'] := (Except.ok.inj h).symm
      have hmemok : ∀ s ∈ n0 :: nr, s ∈ okTasks t := by
        intro s hs
        rw [hok]
        exact hs
      have hno_nl : ∀ s ∈ n0 :: nr, '\n' ∉ s := by
        intro s hs
        obtain ⟨b, nd, hb, hm, hsval, hndsh⟩ := okTasks_mem_inv t s (hmemok s hs)
        subst hsval
        exact buildNewLine_no_nl (bodiesOf_no_nl hb) (taskHash b) (taskHash_nonspace b) hndsh
      have hb1 : (n0 :: nr).filterMap bodyOf = [] :=
        List.filterMap_eq_nil_iff.mpr
          (fun s hs => bodyOf_eq_none_of_take (hx s (hmemok s hs)))
      have hJ : splitNl (joinNl (n0 :: nr) ++ ['\n']) = (n0 :: nr) ++ [[]] :=
        splitNl_joinNl (n0 :: nr) (List.cons_ne_nil n0 nr) hno_nl
      have hbo_hsub : bodiesOf out = bodiesOf t ∧
          ∀ x ∈ prevVals t, x ∈ prevVals out := by
        by_cases hc : t ≠ [] ∧ t.getLast? ≠ some '\n'
        · have hout1 : out = t ++ '\n' :: (joinNl (n0 :: nr) ++ ['\n']) := by
            rw [hout, if_pos hc, List.append_assoc, List.append_assoc,
              List.singleton_append]
          constructor
          · rw [hout1]
            unfold bodiesOf
            rw [splitNl_append_cons_nl, hJ, List.filterMap_append, List.filterMap_append,
              hb1]
            simp [List.filterMap_cons, bodyOf_nil]
          · intro x hxm
            rw [hout1, prevVals_append_space nl_space]
            exact List.mem_append_left _ hxm
        · rw [not_and_or] at hc
          rcases hc with hc1 | hc2
          · have ht0 : t = [] := not_not.mp hc1
            subst ht0
            have hout2 : out = joinNl (n0 :: nr) ++ ['\n'] := by
              rw [hout, if_neg (by simp), List.nil_append]
            constructor
            · rw [hout2]
              unfold bodiesOf
              rw [hJ, List.filterMap_append, hb1]
              simp [List.filterMap_cons, bodyOf_nil]
              intro a ha
              rw [show splitNl [] = [[]] from rfl, List.mem_singleton] at ha
              subst ha
              rfl
            · intro x hxm
              exact absurd hxm
                (by rw [show prevVals [] = [] from rfl]; exact List.not_mem_nil x)
          · have hl : t.getLast? = some '\n' := not_not.mp hc2
            obtain ⟨t', rfl⟩ := getLast?_nl_decomp hl
            have hcond : ¬((t' ++ ['\n']) ≠ [] ∧ (t' ++ ['\n']).getLast? ≠ some '\n') := by
              rintro ⟨-, h2⟩
              exact h2 hl
            have hout3 : out = t' ++ '\n' :: (joinNl (n0 :: nr) ++ ['\n']) := by
              rw [hout, if_neg hcond, List.append_assoc, List.append_assoc,
                List.singleton_append]
            constructor
            · rw [hout3]
              unfold bodiesOf
              rw [splitNl_append_cons_nl, hJ, splitNl_append_nl, List.filterMap_append,
                List.filterMap_append, List.filterMap_append, hb1]
              simp [List.filterMap_cons, bodyOf_nil]
            · intro x hxm
              rw [hout3, prevVals_append_space nl_space]
              rw [prevVals_append_space nl_space] at hxm
              rw [show prevVals ([] : List Char) = [] from rfl, List.append_nil] at hxm
              exact List.mem_append_left _ hxm
      obtain ⟨hbo, hsub⟩ := hbo_hsub
      have hskip : newTasksFor (prevVals out) (bodiesOf t) = .ok [] := by
        apply newTasksFor_all_skip
        intro b hb
        rcases newTasksFor_ok_inv (prevVals t) (bodiesOf t) (n0 :: nr) hnt b hb with
          h1 | ⟨rec, dn, hr, hd, h2⟩
        · exact Or.inl h1
        · right
          refine ⟨⟨dn, hd⟩, ?_⟩
          rcases h2 with hmem | ⟨nd, ha, hmemnts⟩
          · exact hsub _ hmem
          · obtain ⟨A, B, hAB⟩ := joinNl_mem_decomp (n0 :: nr) _ hmemnts
            have hndsh : nd = none ∨ ∃ D : PyDate, nd = some (formatDate D) := by
              cases nd with
              | none => exact Or.inl rfl
              | some ndv =>
                obtain ⟨D, hD⟩ := _add_recurrence_ok_some ha
                exact Or.inr ⟨D, by rw [hD]⟩
            have hInMem := hash_mem_prevVals_of_build
              (if t ≠ [] ∧ t.getLast? ≠ some '\n' then t ++ ['\n'] else t) A B b
              (taskHash b) nd (taskHash_ne_nil b) (taskHash_nonspace b) hndsh
            rw [hout, List.append_assoc, hAB]
            exact hInMem
      constructor
      · simp only [process_recurring_text, hbo, hskip]
      · unfold okTasks
        rw [hbo, hskip]

/-- Witness for C1: a processed text whose successor is not
completion-marked; processing the output returns it unchanged with no new
successor. -/
theorem claim_C1_witness :
    (∀ s ∈ okTasks (("x Task rec:1d due:2024-01-15 done:2024-01-15\n").toList),
      s.take 2 ≠ ['x', ' ']) ∧
    process_recurring_text (("x Task rec:1d due:2024-01-15 done:2024-01-15\n").toList) =
      .ok (procOut (("x Task rec:1d due:2024-01-15 done:2024-01-15\n").toList)) ∧
    (process_recurring_text
        (procOut (("x Task rec:1d due:2024-01-15 done:2024-01-15\n").toList)) =
      .ok (procOut (("x Task rec:1d due:2024-01-15 done:2024-01-15\n").toList)) ∧
      okTasks (procOut (("x Task rec:1d due:2024-01-15 done:2024-01-15\n").toList)) = []) :=
  ⟨by decide, by decide,
    claim_C1 (("x Task rec:1d due:2024-01-15 done:2024-01-15\n").toList)
      (procOut (("x Task rec:1d due:2024-01-15 done:2024-01-15\n").toList))
      (by decide) (by decide)⟩

/-- Counterexample for C1 as stated: for `x x Water rec:1d done:2024-01-01`
the first run succeeds, but its successor line starts with `x `, so the
second run raises a `TodotxtError` (missing `done:` date) instead of
returning the output unchanged — processing is not idempotent. -/
theorem claim_C1_counter :
    process_recurring_text (("x x Water rec:1d done:2024-01-01\n").toList) =
      .ok (procOut (("x x Water rec:1d done:2024-01-01\n").toList)) ∧
    isTodoErr (process_recurring_text
      (procOut (("x x Water rec:1d done:2024-01-01\n").toList))) = true := by
  exact ⟨by decide, by decide⟩
